import Mathlib

/-!
# xdg-app `list` builtin: merge of the per-scope reference lists and row annotation

Shallow embedding of `app/xdg-app-builtins-list.c`
(`join_strv`, `print_installed_refs`, `xdg_app_builtin_list`).

* C strings are lists of non-NUL bytes; a `char *` that may be `NULL` is an `Option`.
* `NULL`-terminated string vectors (`GStrv`) are lists; reading index `i` of a vector
  gives `none` at the terminator.
* In the loop body, dereferencing `NULL` (or reading past the terminator of `parts`)
  is a fault: the embedded function returns `none`.
* The external collaborators (`xdg_app_dir_*`) are parameters; the table printer is
  modelled from the specification.
-/

namespace XdgAppList

/-! ## C strings -/

/-- A byte of a C string: an `unsigned char` other than the terminating NUL. -/
abbrev CChar := { n : Nat // 0 < n ∧ n < 256 }

/-- A C string: the bytes before the terminating NUL. -/
abbrev CStr := List CChar

/-- Byte with the given code; codes outside `1..255` are mapped to `?`.
Only used to write string literals. -/
def CChar.ofNat (n : Nat) : CChar :=
  if h : 0 < n ∧ n < 256 then ⟨n, h⟩ else ⟨63, by decide⟩

/-- The C string literal with the given (ASCII) bytes. -/
def lit (s : String) : CStr := s.toList.map (fun c => CChar.ofNat c.toNat)

/-- The byte `/`. -/
def slash : CChar := ⟨47, by decide⟩

/-- libc `strcmp`: compares the two strings byte by byte as `unsigned char`; the
result is the difference of the first pair of bytes that differ (the terminator
counting as 0), and 0 when there is none. Callers only use its sign. -/
def strcmp : CStr → CStr → Int
  | [], [] => 0
  | [], b :: _ => 0 - (b.val : Int)
  | a :: _, [] => (a.val : Int) - 0
  | a :: s1, b :: s2 => if a = b then strcmp s1 s2 else (a.val : Int) - (b.val : Int)

/-- Ascending under byte-wise comparison: every element compares `<= 0` against
every later element. -/
def ascending (l : List CStr) : Prop := l.Pairwise (fun a b => strcmp a b ≤ 0)

instance (l : List CStr) : Decidable (ascending l) := by
  unfold ascending; infer_instance

/-! ## The merge loop of `print_installed_refs` (lines 120-140) -/

/-- Lines 128-135: which list the next reference is taken from, given
`system[s]` and `user[u]` (`none` is the `NULL` terminator). -/
def is_user (sys usr : Option CStr) : Bool :=
  match sys, usr with
  | none, _ => true
  | some _, none => false
  | some a, some b => if strcmp a b ≤ 0 then false else true

/-- The loop `for (s = 0, u = 0; system[s] != NULL || user[u] != NULL; )` restricted
to its control state: the list of `(ref, is_user)` chosen by successive iterations
starting at indices `s`, `u`. The first argument bounds the number of iterations. -/
def mergeLoop (system user : List CStr) : Nat → Nat → Nat → List (CStr × Bool)
  | 0, _, _ => []
  | fuel + 1, s, u =>
    if (system.get? s).isSome || (user.get? u).isSome then
      if is_user (system.get? s) (user.get? u) then
        match user.get? u with
        | some ref => (ref, true) :: mergeLoop system user fuel s (u + 1)
        | none => []
      else
        match system.get? s with
        | some ref => (ref, false) :: mergeLoop system user fuel (s + 1) u
        | none => []
    else []

/-- The sequence of `(ref, is_user)` pairs visited by the loop of
`print_installed_refs`, started at `s = 0, u = 0`. Each iteration advances one of the
two indices, so `|system| + |user|` iterations exhaust both vectors. -/
def mergeRefs (system user : List CStr) : List (CStr × Bool) :=
  mergeLoop system user (system.length + user.length) 0 0

/-! ## GLib / libc helpers used by the loop body -/

/-- Tokens of a string separated by the byte `d` (always at least one token). -/
def splitOn (d : CChar) : CStr → List CStr
  | [] => [[]]
  | c :: cs =>
    if c = d then [] :: splitOn d cs
    else
      match splitOn d cs with
      | [] => [[c]]
      | t :: ts => (c :: t) :: ts

/-- GLib `g_strsplit (string, "/", -1)`: the empty string gives the empty vector,
any other string is cut at every `/` (so `n` delimiters give `n + 1` tokens). -/
def g_strsplit (string : CStr) : List CStr :=
  if string = [] then [] else splitOn slash string

/-- libc `strchr (s, c)`: the suffix of `s` starting at the first `c`, `NULL` if
there is none. -/
def strchr : CStr → CChar → Option CStr
  | [], _ => none
  | x :: xs, c => if x = c then some (x :: xs) else strchr xs c

/-! ## Table printer -/

/-- Modelled from the spec: the row type of the table printer
(`xdg_app_table_printer_*`, declared in `xdg-app-utils.h`, is not among the sources).
Spec section 3: a row is "an ordered sequence of column strings plus an optional tag
list". -/
structure Row where
  columns : List CStr
  tags : List CStr
deriving DecidableEq

/-- Modelled from the spec: the table printer (`XdgAppTablePrinter` is not among the
sources). Spec section 4.3: it "accumulates rows of columns", the tag column being
"built incrementally via repeated comma-appending calls ... before the row is
finalized", and it must not reorder rows. -/
structure XdgAppTablePrinter where
  rows : List Row
  current : Row
deriving DecidableEq

/-- Modelled from the spec: `xdg_app_table_printer_new`, a printer with no rows. -/
def xdg_app_table_printer_new : XdgAppTablePrinter := ⟨[], ⟨[], []⟩⟩

/-- Modelled from the spec: `xdg_app_table_printer_add_column` appends one column to
the row being built; an absent text is "treated as an empty string" (section 4.2). -/
def xdg_app_table_printer_add_column (printer : XdgAppTablePrinter) (text : Option CStr) :
    XdgAppTablePrinter :=
  { printer with
    current := { printer.current with columns := printer.current.columns ++ [text.getD []] } }

/-- Modelled from the spec: `xdg_app_table_printer_append_with_comma` appends one tag
to the tag list of the row being built. -/
def xdg_app_table_printer_append_with_comma (printer : XdgAppTablePrinter) (text : CStr) :
    XdgAppTablePrinter :=
  { printer with current := { printer.current with tags := printer.current.tags ++ [text] } }

/-- Modelled from the spec: `xdg_app_table_printer_finish_row` closes the row being
built and starts a new one. -/
def xdg_app_table_printer_finish_row (printer : XdgAppTablePrinter) : XdgAppTablePrinter :=
  ⟨printer.rows ++ [printer.current], ⟨[], []⟩⟩

/-- Modelled from the spec: what `xdg_app_table_printer_print` renders, the finished
rows in order. -/
def xdg_app_table_printer_print (printer : XdgAppTablePrinter) : List Row := printer.rows

/-! ## Store accessor -/

/-- The store of one scope (`XdgAppDir`, an external collaborator): the results of
the `xdg_app_dir_*` calls made by `print_installed_refs`. `none` is a `FALSE`
return of `list_refs` and a `NULL` return of the other lookups. -/
structure XdgAppDir where
  ensure_repo : Bool
  list_refs : CStr → Option (List CStr)
  get_origin : CStr → Option CStr
  read_active : CStr → Option CStr
  read_latest : Option CStr → CStr → Option CStr
  current_ref : Option CStr → Option CStr

/-- What `print_installed_refs` reads from outside its arguments: the static
`opt_show_details` and `xdg_app_dir_get (user)`. -/
structure Env where
  opt_show_details : Bool
  xdg_app_dir_get : Bool → XdgAppDir

/-! ## `join_strv` (lines 49-72) -/

/-- `join_strv (a, b)`: a copy of `a` followed by a copy of `b`, a `NULL` vector
contributing nothing. -/
def join_strv (a b : Option (List CStr)) : List CStr :=
  (match a with
   | some a => a
   | none => []) ++
  (match b with
   | some b => b
   | none => [])

/-! ## The loop body of `print_installed_refs` (lines 142-202) -/

/-- Lines 153-165: the text of the latest column. `strcmp (active, latest)` with
`active == NULL` is a fault. -/
def latest_column (active latest : Option CStr) : Option CStr :=
  match latest with
  | some latest =>
    match active with
    | none => none
    | some active =>
      if strcmp active latest = 0 then some (lit "-")
      else some (latest.take (min latest.length 12))
  | none => some (lit "?")

/-- Lines 150-191, the `opt_show_details` branch: the columns and tags added to the
printer for one reference. Faults: `partial_ref` is `NULL + 1` when the reference has
no `/`, `strlen (active)` with `active == NULL`, `strcmp (parts[0], "app")` on an
empty vector. -/
def detailed_row (dir : XdgAppDir) (app print_system print_user : Bool)
    (ref : CStr) (is_user : Bool) (parts : List CStr) (partial_ref repo : Option CStr)
    (printer : XdgAppTablePrinter) : Option XdgAppTablePrinter :=
  let active := dir.read_active ref
  match latest_column active (dir.read_latest repo ref) with
  | none => none
  | some latest =>
    match partial_ref with
    | none => none
    | some partial_ref =>
      let printer := xdg_app_table_printer_add_column printer (some partial_ref)
      let printer := xdg_app_table_printer_add_column printer repo
      match active with
      | none => none
      | some active =>
        let printer := xdg_app_table_printer_add_column printer
          (some (active.take (min active.length 12)))
        let printer := xdg_app_table_printer_add_column printer (some latest)
        let printer := xdg_app_table_printer_add_column printer (some (lit ""))
        let printer :=
          if print_user && print_system then
            xdg_app_table_printer_append_with_comma printer
              (if is_user then lit "user" else lit "system")
          else printer
        match parts.get? 0 with
        | none => none
        | some kind =>
          if strcmp kind (lit "app") = 0 then
            match dir.current_ref (parts.get? 1) with
            | some current =>
              if strcmp ref current = 0 then
                some (xdg_app_table_printer_append_with_comma printer (lit "current"))
              else some printer
            | none => some printer
          else
            if app then some (xdg_app_table_printer_append_with_comma printer (lit "runtime"))
            else some printer

/-- Lines 195-200, the compact branch: a column holding `parts[1]` is added unless
`last` holds the same name; returns the new `last`. Faults: `parts[1]` read past the
terminator of an empty vector, `strcmp (last, NULL)`. -/
def compact_row (last : Option CStr) (parts : List CStr) (printer : XdgAppTablePrinter) :
    Option (Option CStr × XdgAppTablePrinter) :=
  match parts with
  | [] => none
  | _ :: rest =>
    let name := rest.get? 0
    match last with
    | none => some (name, xdg_app_table_printer_add_column printer name)
    | some l =>
      match name with
      | none => none
      | some n =>
        if strcmp l n ≠ 0 then some (some n, xdg_app_table_printer_add_column printer (some n))
        else some (some l, printer)

/-- The variables that live across iterations, besides `s` and `u`. -/
structure LoopState where
  last : Option CStr
  printer : XdgAppTablePrinter
deriving DecidableEq

/-- Lines 142-202: one iteration for the chosen `(ref, is_user)`; `none` is a
fault. -/
def loop_body (env : Env) (app print_system print_user : Bool) (st : LoopState)
    (item : CStr × Bool) : Option LoopState :=
  let ref := item.1
  let is_user := item.2
  let parts := g_strsplit ref
  let partial_ref := (strchr ref slash).map List.tail
  let dir := env.xdg_app_dir_get is_user
  let repo := dir.get_origin ref
  if env.opt_show_details then
    match detailed_row dir app print_system print_user ref is_user parts partial_ref repo
        st.printer with
    | none => none
    | some printer => some ⟨st.last, xdg_app_table_printer_finish_row printer⟩
  else
    match compact_row st.last parts st.printer with
    | none => none
    | some (last, printer) => some ⟨last, xdg_app_table_printer_finish_row printer⟩

/-- Lines 120-203: the loop, over the `(ref, is_user)` sequence it visits. -/
def run_loop (env : Env) (app print_system print_user : Bool) :
    List (CStr × Bool) → LoopState → Option LoopState
  | [], st => some st
  | item :: items, st =>
    match loop_body env app print_system print_user st item with
    | none => none
    | some st => run_loop env app print_system print_user items st

/-! ## `print_installed_refs` (lines 74-209) -/

/-- Outcome of `print_installed_refs`. -/
inductive Result where
  /-- A `NULL` dereference or out-of-bounds read. -/
  | fault
  /-- Returned `FALSE` with the error set. -/
  | failure
  /-- Returned `TRUE` after printing these rows. -/
  | success (rows : List Row)
deriving DecidableEq

/-- Lines 92-98 and 106-112: the references of one scope, `(refs_app, refs_runtime)`;
`none` when a `list_refs` call fails (`return FALSE`). A vector stays `NULL` when the
store is not initialised or the kind is not requested. -/
def query_scope (dir : XdgAppDir) (app runtime : Bool) :
    Option (Option (List CStr) × Option (List CStr)) :=
  if dir.ensure_repo then
    match (if app then (dir.list_refs (lit "app")).map some else some none) with
    | none => none
    | some refs_app =>
      match (if runtime then (dir.list_refs (lit "runtime")).map some else some none) with
      | none => none
      | some refs_runtime => some (refs_app, refs_runtime)
  else some (none, none)

/-- `print_installed_refs (app, runtime, print_system, print_user, ...)`. -/
def print_installed_refs (env : Env) (app runtime print_system print_user : Bool) : Result :=
  match (if print_user then query_scope (env.xdg_app_dir_get true) app runtime
         else some (none, none)) with
  | none => Result.failure
  | some (user_app, user_runtime) =>
    match (if print_system then query_scope (env.xdg_app_dir_get false) app runtime
           else some (none, none)) with
    | none => Result.failure
    | some (system_app, system_runtime) =>
      let printer := xdg_app_table_printer_new
      let user := join_strv user_app user_runtime
      let system := join_strv system_app system_runtime
      match run_loop env app print_system print_user (mergeRefs system user)
          ⟨none, printer⟩ with
      | none => Result.fault
      | some st => Result.success (xdg_app_table_printer_print st.printer)

/-! ## `xdg_app_builtin_list` (lines 211-231) -/

/-- The static option variables after `xdg_app_option_context_parse`. -/
structure Options where
  opt_show_details : Bool
  opt_user : Bool
  opt_system : Bool
  opt_runtime : Bool
  opt_app : Bool
deriving DecidableEq

/-- The arguments of the call of `print_installed_refs` at lines 224-227. -/
structure Call where
  app : Bool
  runtime : Bool
  print_system : Bool
  print_user : Bool
deriving DecidableEq

/-- Lines 221-226: the kinds and scopes requested from `print_installed_refs`. -/
def call_arguments (o : Options) : Call :=
  let opt_app := if !o.opt_app && !o.opt_runtime then true else o.opt_app
  { app := opt_app
    runtime := o.opt_runtime
    print_system := o.opt_system || (!o.opt_user && !o.opt_system)
    print_user := o.opt_user || (!o.opt_user && !o.opt_system) }

/-- `xdg_app_builtin_list`: `parsed` is `none` when option parsing fails. -/
def xdg_app_builtin_list (parsed : Option Options) (dirs : Bool → XdgAppDir) : Result :=
  match parsed with
  | none => Result.failure
  | some o =>
    let c := call_arguments o
    print_installed_refs ⟨o.opt_show_details, dirs⟩ c.app c.runtime c.print_system c.print_user

/-! ## Vocabulary of the specification -/

/-- The kind component of a reference: `parts[0]` of `g_strsplit (ref, "/", -1)`. -/
def ref_kind (ref : CStr) : Option CStr := (g_strsplit ref).get? 0

/-- The name component of a reference: `parts[1]` of `g_strsplit (ref, "/", -1)`. -/
def ref_name (ref : CStr) : Option CStr := (g_strsplit ref).get? 1

/-- A well-formed reference has exactly four slash-separated parts
(kind, name, architecture, branch). -/
def well_formed (ref : CStr) : Prop := (g_strsplit ref).length = 4

instance (ref : CStr) : Decidable (well_formed ref) := by
  unfold well_formed; infer_instance

/-- The name components of the merged items, in merge order. -/
def merged_names (A B : List CStr) : List CStr :=
  (mergeRefs A B).filterMap (fun item => ref_name item.1)

/-- The distinct elements of a list in the order of their first appearance. -/
def first_appearances : List CStr → List CStr
  | [] => []
  | n :: ns => n :: (first_appearances ns).filter (fun m => decide (m ≠ n))

/-- Run-length reduction: an element is dropped when it equals the element before it
(`last` standing before the list). -/
def run_length (last : Option CStr) : List CStr → List CStr
  | [] => []
  | n :: ns => if last = some n then run_length last ns else n :: run_length (some n) ns

/-- The rows that hold at least one column. -/
def nonempty_rows (rows : List Row) : List Row :=
  rows.filter (fun row => !row.columns.isEmpty)

/-- The compact row that holds the name `n`. -/
def name_row (n : CStr) : Row := ⟨[n], []⟩

/-- Compact-mode reduction as the specification states it, for the system list `A`
and the user list `B`: the loop completes, its non-empty rows are the distinct names
of the merged items in order of first appearance, one row each, and there are at most
as many rows as merged items. -/
def compact_reduction (dirs : Bool → XdgAppDir) (app print_system print_user : Bool)
    (A B : List CStr) : Prop :=
  ∃ st, run_loop ⟨false, dirs⟩ app print_system print_user (mergeRefs A B)
      ⟨none, xdg_app_table_printer_new⟩ = some st ∧
    nonempty_rows (xdg_app_table_printer_print st.printer) =
      (first_appearances (merged_names A B)).map name_row ∧
    (xdg_app_table_printer_print st.printer).length ≤ (mergeRefs A B).length

/-- The Row Annotator of the specification: the row that one iteration of the loop
finishes when the row being built is empty at its start (as it is at the start of
every iteration); `none` when the iteration faults. -/
def annotate (env : Env) (app print_system print_user : Bool) (last : Option CStr)
    (item : CStr × Bool) : Option Row :=
  match loop_body env app print_system print_user ⟨last, xdg_app_table_printer_new⟩ item with
  | none => none
  | some st => st.printer.rows.getLast?

/-- The tag appended at lines 176-177. -/
def scope_tags (print_system print_user is_user : Bool) : List CStr :=
  if print_user && print_system then [if is_user then lit "user" else lit "system"] else []

/-- The tag appended at lines 179-191, for a reference whose first part is `kind`. -/
def kind_tags (dir : XdgAppDir) (app : Bool) (ref kind : CStr) : List CStr :=
  if strcmp kind (lit "app") = 0 then
    match dir.current_ref (ref_name ref) with
    | some current => if strcmp ref current = 0 then [lit "current"] else []
    | none => []
  else if app then [lit "runtime"] else []

/-! ## Concrete stores and inputs used as examples -/

/-- The system list of the scenario of the specification, in ascending order:
`app/org.bar/x86_64/stable`, `app/org.foo/x86_64/stable`. -/
def scenario_system : List CStr :=
  [lit "app/org.bar/x86_64/stable", lit "app/org.foo/x86_64/stable"]

/-- The user list of the scenario of the specification: `app/org.bar/x86_64/stable`. -/
def scenario_user : List CStr := [lit "app/org.bar/x86_64/stable"]

/-- A store with one installed application whose deployment has an active commit
`abcdef1234567890`, a newer latest commit and is the current one. -/
def sample_dir : XdgAppDir where
  ensure_repo := true
  list_refs := fun kind =>
    if kind = lit "app" then some [lit "app/org.foo/x86_64/stable"] else some []
  get_origin := fun _ => some (lit "origin")
  read_active := fun _ => some (lit "abcdef1234567890")
  read_latest := fun _ _ => some (lit "0123456789abcdef")
  current_ref := fun _ => some (lit "app/org.foo/x86_64/stable")

/-- A store with one installed application whose `active` link is missing: `read_active`
returns `NULL`. -/
def dir_without_active : XdgAppDir where
  ensure_repo := true
  list_refs := fun kind =>
    if kind = lit "app" then some [lit "app/org.foo/x86_64/stable"] else some []
  get_origin := fun _ => some (lit "origin")
  read_active := fun _ => none
  read_latest := fun _ _ => none
  current_ref := fun _ => none

/-- A system list in ascending order where an application and a runtime share the name
`org.foo`: `app/org.foo/x86_64/stable`, `app/org.zed/x86_64/stable`,
`runtime/org.foo/x86_64/stable`. -/
def shared_name_system : List CStr :=
  [lit "app/org.foo/x86_64/stable", lit "app/org.zed/x86_64/stable",
   lit "runtime/org.foo/x86_64/stable"]

/-- No flag given on the command line. -/
def no_flags : Options := ⟨false, false, false, false, false⟩

/-! ## The store queries of `print_installed_refs` (lines 86-118) -/

/-- Lines 92-98 and 106-112: the kinds for which `xdg_app_dir_list_refs` is called on
one scope, in call order. Nothing is called when `ensure_repo` fails; the `runtime`
call is not reached when the `app` call fails. -/
def query_scope_calls (dir : XdgAppDir) (app runtime : Bool) : List CStr :=
  if dir.ensure_repo then
    if app then
      match dir.list_refs (lit "app") with
      | none => [lit "app"]
      | some _ => if runtime then [lit "app", lit "runtime"] else [lit "app"]
    else if runtime then [lit "runtime"] else []
  else []

/-- Lines 86-113: the `xdg_app_dir_list_refs` calls made by `print_installed_refs`, as
`(user scope, kind)` in call order. The system scope is not reached when a user query
fails. -/
def list_refs_calls (env : Env) (app runtime print_system print_user : Bool) :
    List (Bool × CStr) :=
  let user_calls :=
    if print_user then
      (query_scope_calls (env.xdg_app_dir_get true) app runtime).map (fun kind => (true, kind))
    else []
  match (if print_user then query_scope (env.xdg_app_dir_get true) app runtime
         else some (none, none)) with
  | none => user_calls
  | some _ =>
    user_calls ++
      (if print_system then
        (query_scope_calls (env.xdg_app_dir_get false) app runtime).map
          (fun kind => (false, kind))
       else [])

/-- Lines 86-118: the vectors `(system, user)` handed to the loop, `none` when
`print_installed_refs` has returned `FALSE` before the printer is created at
line 115. -/
def listed_refs (env : Env) (app runtime print_system print_user : Bool) :
    Option (List CStr × List CStr) :=
  match (if print_user then query_scope (env.xdg_app_dir_get true) app runtime
         else some (none, none)) with
  | none => none
  | some (user_app, user_runtime) =>
    match (if print_system then query_scope (env.xdg_app_dir_get false) app runtime
           else some (none, none)) with
    | none => none
    | some (system_app, system_runtime) =>
      some (join_strv system_app system_runtime, join_strv user_app user_runtime)

/-- The same store, initialised and holding no reference: every `list_refs` call
succeeds with the empty vector. -/
def empty_store (dir : XdgAppDir) : XdgAppDir :=
  { dir with ensure_repo := true, list_refs := fun _ => some [] }

/-- The environment in which the store of scope `scope` is `dir`. -/
def with_dir (env : Env) (scope : Bool) (dir : XdgAppDir) : Env :=
  { env with xdg_app_dir_get := fun s => if s = scope then dir else env.xdg_app_dir_get s }

/-- A store that is not initialised: `ensure_repo` fails. Its `list_refs` would fail
if it were called. -/
def uninitialized_dir : XdgAppDir where
  ensure_repo := false
  list_refs := fun _ => none
  get_origin := fun _ => none
  read_active := fun _ => none
  read_latest := fun _ _ => none
  current_ref := fun _ => none

/-- An initialised store whose `list_refs` calls fail. -/
def failing_dir : XdgAppDir where
  ensure_repo := true
  list_refs := fun _ => none
  get_origin := fun _ => none
  read_active := fun _ => none
  read_latest := fun _ _ => none
  current_ref := fun _ => none

/-- Contract of the store accessor (specification, section 2: it "returns the sorted
set of installed reference strings of a requested kind"): the references returned by
`list_refs` for `app` and for `runtime` have that kind. -/
def kind_faithful (dir : XdgAppDir) : Prop :=
  (∀ r ∈ (dir.list_refs (lit "app")).getD [], ref_kind r = some (lit "app")) ∧
  (∀ r ∈ (dir.list_refs (lit "runtime")).getD [], ref_kind r = some (lit "runtime"))

instance (dir : XdgAppDir) : Decidable (kind_faithful dir) := by
  unfold kind_faithful; infer_instance

/-- A store with one installed application and one installed runtime, both with an
active commit. -/
def mixed_dir : XdgAppDir where
  ensure_repo := true
  list_refs := fun kind =>
    if kind = lit "app" then some [lit "app/org.foo/x86_64/stable"]
    else if kind = lit "runtime" then some [lit "runtime/org.base/x86_64/stable"]
    else some []
  get_origin := fun _ => some (lit "origin")
  read_active := fun _ => some (lit "abcdef1234567890")
  read_latest := fun _ _ => none
  current_ref := fun _ => none

/-- Each maximal run of consecutive equal elements collapsed to one element. -/
def collapse_runs : List CStr → List CStr
  | [] => []
  | [a] => [a]
  | a :: b :: l => if a = b then collapse_runs (b :: l) else a :: collapse_runs (b :: l)

/-- Compact mode, for the system list `A` and the user list `B`, completes and the
names held by its non-empty rows are `names`, in row order. -/
def compact_emits (dirs : Bool → XdgAppDir) (app print_system print_user : Bool)
    (A B : List CStr) (names : List CStr) : Prop :=
  ∃ st, run_loop ⟨false, dirs⟩ app print_system print_user (mergeRefs A B)
      ⟨none, xdg_app_table_printer_new⟩ = some st ∧
    nonempty_rows (xdg_app_table_printer_print st.printer) = names.map name_row

/-- An ascending list of two well-formed applications where the second name is a
proper start of the first: `app/org.foo.bar/x86_64/stable`,
`app/org.foo/x86_64/stable` (`.` sorts before `/`). -/
def nested_name_system : List CStr :=
  [lit "app/org.foo.bar/x86_64/stable", lit "app/org.foo/x86_64/stable"]

/-- Contract of the store accessor (specification, sections 3 and 6: `listRefs`
returns a sorted list of references of the requested kind): the vectors returned for
`app` and for `runtime` are ascending and their references start with `app/` and
`runtime/`. -/
def sorted_store (dir : XdgAppDir) : Prop :=
  ascending ((dir.list_refs (lit "app")).getD []) ∧
  ascending ((dir.list_refs (lit "runtime")).getD []) ∧
  (∀ r ∈ (dir.list_refs (lit "app")).getD [], lit "app/" <+: r) ∧
  (∀ r ∈ (dir.list_refs (lit "runtime")).getD [], lit "runtime/" <+: r)

instance (dir : XdgAppDir) : Decidable (sorted_store dir) := by
  unfold sorted_store; infer_instance

/-- The loop condition at line 120: `system[s] != NULL || user[u] != NULL`. -/
def loop_cond (system user : List CStr) (s u : Nat) : Bool :=
  (system.get? s).isSome || (user.get? u).isSome

/-- Lines 120-140 on the indices `(s, u)`: `none` when the loop condition is false,
otherwise the indices after the iteration (`u++` when `is_user`, `s++` otherwise). -/
def loop_step (system user : List CStr) (st : Nat × Nat) : Option (Nat × Nat) :=
  if loop_cond system user st.1 st.2 then
    if is_user (system.get? st.1) (user.get? st.2) then some (st.1, st.2 + 1)
    else some (st.1 + 1, st.2)
  else none

/-- The indices `(s, u)` after `k` iterations from `s = 0, u = 0`; `none` when the
loop has exited before its `k`-th iteration. -/
def loop_indices (system user : List CStr) : Nat → Option (Nat × Nat)
  | 0 => some (0, 0)
  | k + 1 =>
    match loop_indices system user k with
    | none => none
    | some st => loop_step system user st

/-- A store with one installed application, `app/org.zed/x86_64/stable`. -/
def zed_dir : XdgAppDir where
  ensure_repo := true
  list_refs := fun kind =>
    if kind = lit "app" then some [lit "app/org.zed/x86_64/stable"] else some []
  get_origin := fun _ => some (lit "origin")
  read_active := fun _ => some (lit "abcdef1234567890")
  read_latest := fun _ _ => none
  current_ref := fun _ => none

/-- The references a store can return: its `app` vector followed by its `runtime`
vector (a failed call contributing nothing). -/
def installed (dir : XdgAppDir) : List CStr :=
  (dir.list_refs (lit "app")).getD [] ++ (dir.list_refs (lit "runtime")).getD []

/-! ## Facts about `strcmp` -/

theorem strcmp_self (a : CStr) : strcmp a a = 0 := by
  induction a with
  | nil => rfl
  | cons x xs ih => simp [strcmp, ih]

theorem strcmp_swap (a b : CStr) : strcmp b a = - strcmp a b := by
  induction a generalizing b with
  | nil =>
    cases b with
    | nil => rfl
    | cons y ys => simp [strcmp]
  | cons x xs ih =>
    cases b with
    | nil => simp [strcmp]
    | cons y ys =>
      by_cases h : x = y
      · subst h; simp [strcmp, ih]
      · have h2 : ¬ y = x := fun e => h e.symm
        simp [strcmp, h, h2]

theorem strcmp_eq_zero {a b : CStr} : strcmp a b = 0 ↔ a = b := by
  constructor
  · intro h
    induction a generalizing b with
    | nil =>
      cases b with
      | nil => rfl
      | cons y ys =>
        have := y.property.1
        simp [strcmp] at h
        omega
    | cons x xs ih =>
      cases b with
      | nil =>
        have := x.property.1
        simp [strcmp] at h
        omega
      | cons y ys =>
        by_cases hxy : x = y
        · subst hxy
          simp [strcmp] at h
          rw [ih h]
        · have hv : x.val ≠ y.val := fun e => hxy (Subtype.ext e)
          simp [strcmp, hxy] at h
          omega
  · intro h
    rw [h]
    exact strcmp_self b

theorem strcmp_trans {a b c : CStr} (hab : strcmp a b ≤ 0) (hbc : strcmp b c ≤ 0) :
    strcmp a c ≤ 0 := by
  induction a generalizing b c with
  | nil =>
    cases c with
    | nil => simp [strcmp]
    | cons z zs => simp [strcmp]
  | cons x xs ih =>
    cases b with
    | nil =>
      have := x.property.1
      simp [strcmp] at hab
      omega
    | cons y ys =>
      cases c with
      | nil =>
        have := y.property.1
        simp [strcmp] at hbc
        omega
      | cons z zs =>
        by_cases hxy : x = y
        · subst hxy
          by_cases hxz : x = z
          · subst hxz
            simp [strcmp] at hab hbc ⊢
            exact ih hab hbc
          · simp [strcmp, hxz] at hbc ⊢
            exact hbc
        · by_cases hyz : y = z
          · subst hyz
            simp [strcmp, hxy] at hab ⊢
            exact hab
          · have hv1 : x.val ≠ y.val := fun e => hxy (Subtype.ext e)
            have hv2 : y.val ≠ z.val := fun e => hyz (Subtype.ext e)
            simp only [strcmp, hxy, if_false] at hab
            simp only [strcmp, hyz, if_false] at hbc
            have hxz : ¬ x = z := by
              intro e
              have : x.val = z.val := by rw [e]
              omega
            simp only [strcmp, hxz, if_false]
            omega

theorem strcmp_lt_of_not_le {a b : CStr} (h : ¬ strcmp a b ≤ 0) : strcmp b a < 0 := by
  rw [strcmp_swap a b]
  omega

theorem strcmp_le_of_not_le {a b : CStr} (h : ¬ strcmp a b ≤ 0) : strcmp b a ≤ 0 :=
  Int.le_of_lt (strcmp_lt_of_not_le h)

/-! ## The recursion equations of the merge -/

theorem mergeLoop_shift_system (a : CStr) (system user : List CStr) (fuel s u : Nat) :
    mergeLoop (a :: system) user fuel (s + 1) u = mergeLoop system user fuel s u := by
  induction fuel generalizing s u with
  | zero => rfl
  | succ n ih => simp [mergeLoop, ih]

theorem mergeLoop_shift_user (b : CStr) (system user : List CStr) (fuel s u : Nat) :
    mergeLoop system (b :: user) fuel s (u + 1) = mergeLoop system user fuel s u := by
  induction fuel generalizing s u with
  | zero => rfl
  | succ n ih => simp [mergeLoop, ih]

theorem mergeRefs_nil_nil : mergeRefs [] [] = [] := rfl

theorem mergeRefs_nil_cons (b : CStr) (bs : List CStr) :
    mergeRefs [] (b :: bs) = (b, true) :: mergeRefs [] bs := by
  simp [mergeRefs, mergeLoop, is_user, mergeLoop_shift_user]

theorem mergeRefs_cons_nil (a : CStr) (as : List CStr) :
    mergeRefs (a :: as) [] = (a, false) :: mergeRefs as [] := by
  simp [mergeRefs, mergeLoop, is_user, mergeLoop_shift_system]

theorem mergeRefs_cons_cons_le (a b : CStr) (as bs : List CStr) (h : strcmp a b ≤ 0) :
    mergeRefs (a :: as) (b :: bs) = (a, false) :: mergeRefs as (b :: bs) := by
  have e : (as.length + 1) + (bs.length + 1) = (as.length + (bs.length + 1)) + 1 := by omega
  simp only [mergeRefs, List.length_cons]
  rw [e]
  simp [mergeLoop, is_user, h, mergeLoop_shift_system]

theorem mergeRefs_cons_cons_gt (a b : CStr) (as bs : List CStr) (h : ¬ strcmp a b ≤ 0) :
    mergeRefs (a :: as) (b :: bs) = (b, true) :: mergeRefs (a :: as) bs := by
  have e : (as.length + 1) + (bs.length + 1) = ((as.length + 1) + bs.length) + 1 := by omega
  simp only [mergeRefs, List.length_cons]
  rw [e]
  simp [mergeLoop, is_user, h, mergeLoop_shift_user]

/-- Induction along the iterations of the merge loop. -/
theorem mergeRefs_induction {P : List CStr → List CStr → Prop}
    (nil_nil : P [] [])
    (nil_cons : ∀ b bs, P [] bs → P [] (b :: bs))
    (cons_nil : ∀ a as, P as [] → P (a :: as) [])
    (cons_cons_le : ∀ a as b bs, strcmp a b ≤ 0 → P as (b :: bs) → P (a :: as) (b :: bs))
    (cons_cons_gt : ∀ a as b bs, ¬ strcmp a b ≤ 0 → P (a :: as) bs → P (a :: as) (b :: bs))
    (A B : List CStr) : P A B := by
  induction A generalizing B with
  | nil =>
    induction B with
    | nil => exact nil_nil
    | cons b bs ih => exact nil_cons b bs ih
  | cons a as iha =>
    induction B with
    | nil => exact cons_nil a as (iha [])
    | cons b bs ihb =>
      by_cases h : strcmp a b ≤ 0
      · exact cons_cons_le a as b bs h (iha (b :: bs))
      · exact cons_cons_gt a as b bs h ihb

/-! ## Properties of the merge -/

theorem mergeRefs_perm (A B : List CStr) :
    ((mergeRefs A B).map Prod.fst).Perm (A ++ B) := by
  refine mergeRefs_induction (P := fun A B => ((mergeRefs A B).map Prod.fst).Perm (A ++ B))
    ?_ ?_ ?_ ?_ ?_ A B
  · simp [mergeRefs_nil_nil]
  · intro b bs ih
    rw [mergeRefs_nil_cons]
    simpa using ih
  · intro a as ih
    rw [mergeRefs_cons_nil]
    simpa using ih
  · intro a as b bs h ih
    rw [mergeRefs_cons_cons_le a b as bs h]
    simpa using ih
  · intro a as b bs h ih
    rw [mergeRefs_cons_cons_gt a b as bs h]
    have h1 : ((b :: (mergeRefs (a :: as) bs).map Prod.fst)).Perm (b :: (a :: as ++ bs)) :=
      List.Perm.cons b ih
    have h2 : (b :: (a :: as ++ bs)).Perm (a :: as ++ b :: bs) :=
      (@List.perm_middle _ b (a :: as) bs).symm
    simpa using h1.trans h2

theorem mem_mergeRefs_fst {A B : List CStr} {x : CStr} :
    x ∈ (mergeRefs A B).map Prod.fst ↔ x ∈ A ∨ x ∈ B := by
  rw [(mergeRefs_perm A B).mem_iff, List.mem_append]

theorem mergeRefs_ascending (A B : List CStr) (hA : ascending A) (hB : ascending B) :
    ascending ((mergeRefs A B).map Prod.fst) := by
  revert hA hB
  refine mergeRefs_induction
    (P := fun A B => ascending A → ascending B → ascending ((mergeRefs A B).map Prod.fst))
    ?_ ?_ ?_ ?_ ?_ A B
  · intro _ _
    simp [mergeRefs_nil_nil, ascending]
  · intro b bs ih hA hB
    rw [mergeRefs_nil_cons]
    unfold ascending at hB ih ⊢
    rw [List.pairwise_cons] at hB
    rw [List.map_cons, List.pairwise_cons]
    refine ⟨?_, ih hA hB.2⟩
    intro x hx
    rcases mem_mergeRefs_fst.mp hx with h | h
    · cases h
    · exact hB.1 x h
  · intro a as ih hA hB
    rw [mergeRefs_cons_nil]
    unfold ascending at hA ih ⊢
    rw [List.pairwise_cons] at hA
    rw [List.map_cons, List.pairwise_cons]
    refine ⟨?_, ih hA.2 hB⟩
    intro x hx
    rcases mem_mergeRefs_fst.mp hx with h | h
    · exact hA.1 x h
    · cases h
  · intro a as b bs h ih hA hB
    rw [mergeRefs_cons_cons_le a b as bs h]
    unfold ascending at hA hB ih ⊢
    have hA2 := List.pairwise_cons.mp hA
    have hB2 := List.pairwise_cons.mp hB
    rw [List.map_cons, List.pairwise_cons]
    refine ⟨?_, ih hA2.2 hB⟩
    intro x hx
    rcases mem_mergeRefs_fst.mp hx with hx | hx
    · exact hA2.1 x hx
    · rcases List.mem_cons.mp hx with hx | hx
      · rw [hx]; exact h
      · exact strcmp_trans h (hB2.1 x hx)
  · intro a as b bs h ih hA hB
    rw [mergeRefs_cons_cons_gt a b as bs h]
    unfold ascending at hA hB ih ⊢
    have hA2 := List.pairwise_cons.mp hA
    have hB2 := List.pairwise_cons.mp hB
    rw [List.map_cons, List.pairwise_cons]
    refine ⟨?_, ih hA hB2.2⟩
    intro x hx
    have hba : strcmp b a ≤ 0 := strcmp_le_of_not_le h
    rcases mem_mergeRefs_fst.mp hx with hx | hx
    · rcases List.mem_cons.mp hx with hx | hx
      · rw [hx]; exact hba
      · exact strcmp_trans hba (hA2.1 x hx)
    · exact hB2.1 x hx

theorem mergeRefs_nil_right (A : List CStr) :
    mergeRefs A [] = A.map (fun r => (r, false)) := by
  induction A with
  | nil => rfl
  | cons a as ih => rw [mergeRefs_cons_nil, ih]; rfl

theorem mergeRefs_nil_left (B : List CStr) :
    mergeRefs [] B = B.map (fun r => (r, true)) := by
  induction B with
  | nil => rfl
  | cons b bs ih => rw [mergeRefs_nil_cons, ih]; rfl

theorem mergeRefs_filter_system (A B : List CStr) :
    ((mergeRefs A B).filter (fun item => !item.2)).map Prod.fst = A := by
  refine mergeRefs_induction
    (P := fun A B => ((mergeRefs A B).filter (fun item => !item.2)).map Prod.fst = A)
    ?_ ?_ ?_ ?_ ?_ A B
  · rfl
  · intro b bs ih
    rw [mergeRefs_nil_cons]
    simpa using ih
  · intro a as ih
    rw [mergeRefs_cons_nil]
    simpa using ih
  · intro a as b bs h ih
    rw [mergeRefs_cons_cons_le a b as bs h]
    simpa using ih
  · intro a as b bs h ih
    rw [mergeRefs_cons_cons_gt a b as bs h]
    simpa using ih

theorem mergeRefs_filter_user (A B : List CStr) :
    ((mergeRefs A B).filter (fun item => item.2)).map Prod.fst = B := by
  refine mergeRefs_induction
    (P := fun A B => ((mergeRefs A B).filter (fun item => item.2)).map Prod.fst = B)
    ?_ ?_ ?_ ?_ ?_ A B
  · rfl
  · intro b bs ih
    rw [mergeRefs_nil_cons]
    simpa using ih
  · intro a as ih
    rw [mergeRefs_cons_nil]
    simpa using ih
  · intro a as b bs h ih
    rw [mergeRefs_cons_cons_le a b as bs h]
    simpa using ih
  · intro a as b bs h ih
    rw [mergeRefs_cons_cons_gt a b as bs h]
    simpa using ih

theorem mem_mergeRefs_system {A B : List CStr} {r : CStr} :
    (r, false) ∈ mergeRefs A B ↔ r ∈ A := by
  conv_rhs => rw [← mergeRefs_filter_system A B]
  simp

theorem mem_mergeRefs_user {A B : List CStr} {r : CStr} :
    (r, true) ∈ mergeRefs A B ↔ r ∈ B := by
  conv_rhs => rw [← mergeRefs_filter_user A B]
  simp

theorem strcmp_lt_of_ascending_nodup {a x : CStr} {as : List CStr}
    (hA : ascending (a :: as)) (hN : (a :: as).Nodup) (hx : x ∈ as) : strcmp a x < 0 := by
  have h1 : strcmp a x ≤ 0 := (List.pairwise_cons.mp hA).1 x hx
  have h2 : strcmp a x ≠ 0 := by
    intro e
    have e2 : a = x := strcmp_eq_zero.mp e
    have h3 : a ∉ as := (List.nodup_cons.mp hN).1
    exact h3 (e2 ▸ hx)
  omega

theorem strcmp_head_le {a x : CStr} {as : List CStr}
    (hA : ascending (a :: as)) (hx : x ∈ a :: as) : strcmp a x ≤ 0 := by
  rcases List.mem_cons.mp hx with h | h
  · rw [h, strcmp_self]
  · exact (List.pairwise_cons.mp hA).1 x h

/-- After the system copy of `a` the loop emits the user copy of `a` at once when the
rest of the system list is strictly above `a`. -/
theorem mergeRefs_user_next (a : CStr) (as bs : List CStr)
    (h : ∀ x ∈ as, strcmp a x < 0) :
    mergeRefs as (a :: bs) = (a, true) :: mergeRefs as bs := by
  cases as with
  | nil => exact mergeRefs_nil_cons a bs
  | cons a2 as2 =>
    have h1 : strcmp a a2 < 0 := h a2 (List.mem_cons_self a2 as2)
    have h2 : ¬ strcmp a2 a ≤ 0 := by
      rw [strcmp_swap a a2]
      omega
    exact mergeRefs_cons_cons_gt a2 a as2 bs h2

theorem mergeRefs_tie (A B : List CStr) :
    ascending A → A.Nodup → ascending B → B.Nodup → ∀ r, r ∈ A → r ∈ B →
    ∃ pre post, mergeRefs A B = pre ++ (r, false) :: (r, true) :: post ∧
      (r, true) ∉ pre ∧ (r, false) ∉ post := by
  refine mergeRefs_induction
    (P := fun A B => ascending A → A.Nodup → ascending B → B.Nodup → ∀ r, r ∈ A → r ∈ B →
      ∃ pre post, mergeRefs A B = pre ++ (r, false) :: (r, true) :: post ∧
        (r, true) ∉ pre ∧ (r, false) ∉ post)
    ?_ ?_ ?_ ?_ ?_ A B
  · intro _ _ _ _ r hr _
    cases hr
  · intro b bs _ _ _ _ _ r hr _
    cases hr
  · intro a as _ _ _ _ _ r _ hr
    cases hr
  · intro a as b bs h ih hA hAn hB hBn r hrA hrB
    by_cases hra : r = a
    · subst hra
      have hb : b = r := by
        rcases List.mem_cons.mp hrB with e | hmem
        · exact e.symm
        · have h1 : strcmp b r < 0 := strcmp_lt_of_ascending_nodup hB hBn hmem
          rw [strcmp_swap r b] at h1
          omega
      subst hb
      have hnext : mergeRefs as (b :: bs) = (b, true) :: mergeRefs as bs :=
        mergeRefs_user_next b as bs (fun x hx => strcmp_lt_of_ascending_nodup hA hAn hx)
      refine ⟨[], mergeRefs as bs, ?_, ?_, ?_⟩
      · rw [mergeRefs_cons_cons_le b b as bs h, hnext]
        rfl
      · simp
      · intro hmem
        exact (List.nodup_cons.mp hAn).1 (mem_mergeRefs_system.mp hmem)
    · have hmem : r ∈ as := by
        rcases List.mem_cons.mp hrA with e | hmem
        · exact absurd e hra
        · exact hmem
      obtain ⟨pre, post, e, h1, h2⟩ :=
        ih (List.pairwise_cons.mp hA).2 (List.nodup_cons.mp hAn).2 hB hBn r hmem hrB
      refine ⟨(a, false) :: pre, post, ?_, ?_, h2⟩
      · rw [mergeRefs_cons_cons_le a b as bs h, e]
        rfl
      · intro hm
        rcases List.mem_cons.mp hm with e2 | hm
        · cases e2
        · exact h1 hm
  · intro a as b bs h ih hA hAn hB hBn r hrA hrB
    by_cases hrb : r = b
    · subst hrb
      exact absurd (strcmp_head_le hA hrA) h
    · have hmem : r ∈ bs := by
        rcases List.mem_cons.mp hrB with e | hmem
        · exact absurd e hrb
        · exact hmem
      obtain ⟨pre, post, e, h1, h2⟩ :=
        ih hA hAn (List.pairwise_cons.mp hB).2 (List.nodup_cons.mp hBn).2 r hrA hmem
      refine ⟨(b, true) :: pre, post, ?_, ?_, h2⟩
      · rw [mergeRefs_cons_cons_gt a b as bs h, e]
        rfl
      · intro hm
        rcases List.mem_cons.mp hm with e2 | hm
        · exact hrb (congrArg Prod.fst e2)
        · exact h1 hm

/-! ## Splitting a reference at `/` -/

theorem splitOn_ne_nil (d : CChar) (s : CStr) : splitOn d s ≠ [] := by
  cases s with
  | nil => simp [splitOn]
  | cons c cs =>
    unfold splitOn
    split
    · simp
    · split <;> simp

theorem splitOn_append (d : CChar) (t r : CStr) (ht : d ∉ t) :
    splitOn d (t ++ d :: r) = t :: splitOn d r := by
  induction t with
  | nil => simp [splitOn]
  | cons c cs ih =>
    have hc : ¬ c = d := fun e => ht (e ▸ List.mem_cons_self c cs)
    have hcs : d ∉ cs := fun h => ht (List.mem_cons_of_mem c h)
    simp [splitOn, hc, ih hcs]

theorem splitOn_cons_cons (d : CChar) (s k n : CStr) (rest : List CStr)
    (h : splitOn d s = k :: n :: rest) :
    ∃ r, s = k ++ d :: r ∧ d ∉ k ∧ splitOn d r = n :: rest := by
  induction s generalizing k with
  | nil => simp [splitOn] at h
  | cons c cs ih =>
    unfold splitOn at h
    by_cases hc : c = d
    · rw [if_pos hc] at h
      injection h with h1 h2
      subst h1
      exact ⟨cs, by simp [hc], by simp, h2⟩
    · rw [if_neg hc] at h
      cases hs : splitOn d cs with
      | nil => exact absurd hs (splitOn_ne_nil d cs)
      | cons t ts =>
        rw [hs] at h
        injection h with h1 h2
        obtain ⟨r, e, hd, hr⟩ := ih t (hs.trans (by rw [h2]))
        refine ⟨r, ?_, ?_, hr⟩
        · rw [← h1, e]; rfl
        · rw [← h1]
          intro hmem
          rcases List.mem_cons.mp hmem with e2 | hmem
          · exact hc e2.symm
          · exact hd hmem

/-- A well-formed reference is `kind/name/...` with slash-free kind and name. -/
theorem well_formed_start {r : CStr} (h : well_formed r) :
    ∃ k n rest, r = (k ++ slash :: (n ++ [slash])) ++ rest ∧ slash ∉ k ∧ slash ∉ n ∧
      ref_kind r = some k ∧ ref_name r = some n := by
  unfold well_formed g_strsplit at h
  by_cases hr : r = []
  · simp [hr] at h
  · rw [if_neg hr] at h
    match hs : splitOn slash r, h with
    | [k, n, a, b], _ =>
      obtain ⟨r1, e1, hk, h1⟩ := splitOn_cons_cons slash r k n [a, b] hs
      obtain ⟨r2, e2, hn, _⟩ := splitOn_cons_cons slash r1 n a [b] h1
      refine ⟨k, n, r2, ?_, hk, hn, ?_, ?_⟩
      · rw [e1, e2]; simp
      · simp [ref_kind, g_strsplit, hr, hs]
      · simp [ref_name, g_strsplit, hr, hs]

/-- A string that starts with `kind/name/` has that kind and that name. -/
theorem ref_name_of_start (k n rest : CStr) (hk : slash ∉ k) (hn : slash ∉ n) :
    ref_kind ((k ++ slash :: (n ++ [slash])) ++ rest) = some k ∧
    ref_name ((k ++ slash :: (n ++ [slash])) ++ rest) = some n := by
  have e : (k ++ slash :: (n ++ [slash])) ++ rest = k ++ slash :: (n ++ slash :: rest) := by
    simp
  have hne : k ++ slash :: (n ++ slash :: rest) ≠ [] := by simp
  rw [e]
  have hs : splitOn slash (k ++ slash :: (n ++ slash :: rest)) =
      k :: n :: splitOn slash rest := by
    rw [splitOn_append slash k _ hk, splitOn_append slash n _ hn]
  constructor
  · simp [ref_kind, g_strsplit, hne, hs]
  · simp [ref_name, g_strsplit, hne, hs]

/-- Strings with a common prefix form an interval of the `strcmp` order. -/
theorem common_start_between (p : CStr) : ∀ x y z : CStr, strcmp x y ≤ 0 → strcmp y z ≤ 0 →
    p <+: x → p <+: z → p <+: y := by
  induction p with
  | nil => intro x y z _ _ _ _; exact List.nil_prefix
  | cons c p ih =>
    intro x y z hxy hyz hx hz
    obtain ⟨x2, ex⟩ := hx
    obtain ⟨z2, ez⟩ := hz
    subst ex
    subst ez
    cases y with
    | nil =>
      have := c.property.1
      simp [strcmp] at hxy
      omega
    | cons d y2 =>
      by_cases hcd : c = d
      · subst hcd
        simp only [List.cons_append, strcmp, if_true] at hxy hyz
        have h := ih (p ++ x2) y2 (p ++ z2) hxy hyz (List.prefix_append p x2)
          (List.prefix_append p z2)
        obtain ⟨t, et⟩ := h
        exact ⟨t, by rw [← et]; rfl⟩
      · have hdc : ¬ d = c := fun e => hcd e.symm
        have hv : c.val ≠ d.val := fun e => hcd (Subtype.ext e)
        simp only [List.cons_append, strcmp, hcd, hdc, if_false] at hxy hyz
        omega

/-- Between two well-formed references of the same kind and name, every reference
has that name. -/
theorem ref_name_between {x y z : CStr} (hxy : strcmp x y ≤ 0) (hyz : strcmp y z ≤ 0)
    (hx : well_formed x) (hz : well_formed z)
    (hname : ref_name x = ref_name z) (hkind : ref_kind x = ref_kind z) :
    ref_name y = ref_name x := by
  obtain ⟨k, n, rx, ex, hk, hn, hkx, hnx⟩ := well_formed_start hx
  obtain ⟨k2, n2, rz, ez, _, _, hkz, hnz⟩ := well_formed_start hz
  have ek : k2 = k := by
    rw [hkx, hkz] at hkind
    exact (Option.some.inj hkind).symm
  have en : n2 = n := by
    rw [hnx, hnz] at hname
    exact (Option.some.inj hname).symm
  subst ek
  subst en
  have hp : (k2 ++ slash :: (n2 ++ [slash])) <+: y :=
    common_start_between _ x y z hxy hyz ⟨rx, ex.symm⟩ ⟨rz, ez.symm⟩
  obtain ⟨ry, ey⟩ := hp
  rw [hnx, ← ey]
  exact (ref_name_of_start k2 n2 ry hk hn).2

/-! ## Compact mode -/

theorem ref_name_of_well_formed {r : CStr} (h : well_formed r) : ∃ n, ref_name r = some n := by
  obtain ⟨_, n, _, _, _, _, _, hn⟩ := well_formed_start h
  exact ⟨n, hn⟩

/-- On an ascending list of well-formed references in which equal names have equal
kinds, a name that has been left never comes back: the run-length reduction keeps
first appearances only. -/
theorem run_length_sorted (M : List CStr) : ∀ (r0 n0 : CStr), ref_name r0 = some n0 →
    ascending (r0 :: M) → (∀ r ∈ r0 :: M, well_formed r) →
    (∀ x ∈ r0 :: M, ∀ z ∈ r0 :: M, ref_name x = ref_name z → ref_kind x = ref_kind z) →
    run_length (some n0) (M.filterMap ref_name) =
      (first_appearances (M.filterMap ref_name)).filter (fun m => decide (m ≠ n0)) := by
  induction M with
  | nil => intro r0 n0 _ _ _ _; rfl
  | cons x xs ih =>
    intro r0 n0 h0 hasc hwf hkind
    obtain ⟨nx, hx⟩ := ref_name_of_well_formed (hwf x (by simp))
    have hsub : (r0 :: xs).Sublist (r0 :: x :: xs) :=
      List.Sublist.cons₂ r0 (List.sublist_cons_self x xs)
    have hasc0 : ascending (r0 :: xs) := List.Pairwise.sublist hsub hasc
    have hascx : ascending (x :: xs) := (List.pairwise_cons.mp hasc).2
    rw [List.filterMap_cons_some hx]
    by_cases e : nx = n0
    · subst e
      have h1 := ih r0 nx h0 hasc0 (fun r hr => hwf r (hsub.subset hr))
        (fun a ha b hb => hkind a (hsub.subset ha) b (hsub.subset hb))
      simp only [run_length, first_appearances, if_true]
      rw [h1]
      simp [List.filter_filter]
    · have e2 : ¬ some n0 = some nx := fun h => e (Option.some.inj h).symm
      have h1 := ih x nx hx hascx (fun r hr => hwf r (List.mem_cons_of_mem r0 hr))
        (fun a ha b hb => hkind a (List.mem_cons_of_mem r0 ha) b (List.mem_cons_of_mem r0 hb))
      simp only [run_length, first_appearances, if_neg e2]
      rw [h1]
      have hgone : ∀ m ∈ (first_appearances (xs.filterMap ref_name)).filter
          (fun m => decide (m ≠ nx)), decide (m ≠ n0) = true := by
        intro m hm
        have hm2 : m ∈ first_appearances (xs.filterMap ref_name) := (List.mem_filter.mp hm).1
        have hm3 : m ∈ xs.filterMap ref_name := by
          have hsubset : ∀ (l : List CStr) (a : CStr), a ∈ first_appearances l → a ∈ l := by
            intro l
            induction l with
            | nil => intro a ha; exact ha
            | cons b bs ihb =>
              intro a ha
              simp only [first_appearances, List.mem_cons, List.mem_filter] at ha
              rcases ha with ha | ha
              · exact ha ▸ List.mem_cons_self b bs
              · exact List.mem_cons_of_mem b (ihb a ha.1)
          exact hsubset _ m hm2
        obtain ⟨z, hz, hzn⟩ := List.mem_filterMap.mp hm3
        simp only [decide_eq_true_eq]
        intro hmn
        subst hmn
        have hpw := List.pairwise_cons.mp hasc
        have h0x : strcmp r0 x ≤ 0 := hpw.1 x (List.mem_cons_self x xs)
        have hxz : strcmp x z ≤ 0 := (List.pairwise_cons.mp hascx).1 z hz
        have hzmem : z ∈ r0 :: x :: xs := List.mem_cons_of_mem r0 (List.mem_cons_of_mem x hz)
        have hname : ref_name r0 = ref_name z := by rw [h0, hzn]
        have hbetween := ref_name_between h0x hxz (hwf r0 (List.mem_cons_self r0 _))
          (hwf z hzmem) hname (hkind r0 (List.mem_cons_self r0 _) z hzmem hname)
        rw [hx, h0] at hbetween
        exact e (Option.some.inj hbetween)
      have hne : decide (nx ≠ n0) = true := by simpa using e
      simp only [List.filter_cons, hne, if_true]
      rw [List.filter_eq_self.mpr hgone]

theorem run_length_first_appearances (M : List CStr) (hasc : ascending M)
    (hwf : ∀ r ∈ M, well_formed r)
    (hkind : ∀ x ∈ M, ∀ z ∈ M, ref_name x = ref_name z → ref_kind x = ref_kind z) :
    run_length none (M.filterMap ref_name) = first_appearances (M.filterMap ref_name) := by
  cases M with
  | nil => rfl
  | cons x xs =>
    obtain ⟨nx, hx⟩ := ref_name_of_well_formed (hwf x (List.mem_cons_self x xs))
    rw [List.filterMap_cons_some hx]
    simp only [run_length, first_appearances]
    rw [if_neg (by simp), run_length_sorted xs x nx hx hasc hwf hkind]

/-- The compact loop on references that all have a name component: it completes,
finishes one row per item, and its non-empty rows are the run-length reduction of the
names. -/
theorem run_loop_compact (dirs : Bool → XdgAppDir) (app print_system print_user : Bool) :
    ∀ (items : List (CStr × Bool)) (last : Option CStr) (p : XdgAppTablePrinter),
    (∀ item ∈ items, ∃ n, ref_name item.1 = some n) → p.current = ⟨[], []⟩ →
    ∃ st, run_loop ⟨false, dirs⟩ app print_system print_user items ⟨last, p⟩ = some st ∧
      nonempty_rows st.printer.rows = nonempty_rows p.rows ++
        (run_length last (items.filterMap (fun item => ref_name item.1))).map name_row ∧
      st.printer.rows.length = p.rows.length + items.length ∧
      st.printer.current = ⟨[], []⟩ := by
  intro items
  induction items with
  | nil =>
    intro last p _ hp
    exact ⟨⟨last, p⟩, rfl, by simp [run_length], by simp, hp⟩
  | cons item items ih =>
    intro last p hn hp
    obtain ⟨n, hname⟩ := hn item (List.mem_cons_self item items)
    have hrest : ∀ it ∈ items, ∃ n, ref_name it.1 = some n :=
      fun it hit => hn it (List.mem_cons_of_mem item hit)
    have hparts : ∃ k rest, g_strsplit item.1 = k :: n :: rest := by
      unfold ref_name at hname
      cases hs : g_strsplit item.1 with
      | nil => rw [hs] at hname; simp at hname
      | cons k t =>
        cases t with
        | nil => rw [hs] at hname; simp at hname
        | cons n2 rest =>
          rw [hs] at hname
          simp at hname
          exact ⟨k, rest, by rw [hname]⟩
    obtain ⟨k, rest, hs⟩ := hparts
    rw [@List.filterMap_cons_some _ _ (fun it : CStr × Bool => ref_name it.1) item items n hname]
    have hemit : ∀ last2 : Option CStr, last2 ≠ some n →
        loop_body ⟨false, dirs⟩ app print_system print_user ⟨last2, p⟩ item =
          some ⟨some n, ⟨p.rows ++ [name_row n], ⟨[], []⟩⟩⟩ := by
      intro last2 hl
      cases last2 with
      | none =>
        simp [loop_body, hs, compact_row, xdg_app_table_printer_add_column,
          xdg_app_table_printer_finish_row, hp, name_row]
      | some l =>
        have hl2 : ¬ strcmp l n = 0 := fun h => hl (by rw [strcmp_eq_zero.mp h])
        simp [loop_body, hs, compact_row, xdg_app_table_printer_add_column,
          xdg_app_table_printer_finish_row, hp, name_row, hl2]
    by_cases hl : last = some n
    · have hskip : loop_body ⟨false, dirs⟩ app print_system print_user ⟨last, p⟩ item =
          some ⟨some n, ⟨p.rows ++ [⟨[], []⟩], ⟨[], []⟩⟩⟩ := by
        subst hl
        simp [loop_body, hs, compact_row, xdg_app_table_printer_finish_row, hp, strcmp_self]
      obtain ⟨st, h1, h2, h3, h4⟩ := ih (some n) ⟨p.rows ++ [⟨[], []⟩], ⟨[], []⟩⟩ hrest rfl
      refine ⟨st, ?_, ?_, ?_, h4⟩
      · simp only [run_loop, hskip]
        exact h1
      · rw [h2, hl]
        simp [run_length, nonempty_rows]
      · rw [h3]
        simp
        omega
    · obtain ⟨st, h1, h2, h3, h4⟩ := ih (some n) ⟨p.rows ++ [name_row n], ⟨[], []⟩⟩ hrest rfl
      refine ⟨st, ?_, ?_, ?_, h4⟩
      · simp only [run_loop, hemit last hl]
        exact h1
      · rw [h2]
        simp [run_length, nonempty_rows, hl, name_row]
      · rw [h3]
        simp
        omega

theorem compact_reduction_of_sorted (dirs : Bool → XdgAppDir)
    (app print_system print_user : Bool) (A B : List CStr)
    (hA : ascending A) (hB : ascending B) (hwf : ∀ r ∈ A ++ B, well_formed r)
    (hkind : ∀ x ∈ A ++ B, ∀ z ∈ A ++ B, ref_name x = ref_name z → ref_kind x = ref_kind z) :
    compact_reduction dirs app print_system print_user A B := by
  have hmem : ∀ r, r ∈ (mergeRefs A B).map Prod.fst → r ∈ A ++ B := by
    intro r hr
    exact List.mem_append.mpr (mem_mergeRefs_fst.mp hr)
  have hnames : merged_names A B = ((mergeRefs A B).map Prod.fst).filterMap ref_name := by
    unfold merged_names
    rw [List.filterMap_map]
    rfl
  obtain ⟨st, h1, h2, h3, _⟩ := run_loop_compact dirs app print_system print_user
    (mergeRefs A B) none xdg_app_table_printer_new
    (fun item hitem => ref_name_of_well_formed
      (hwf item.1 (hmem item.1 (List.mem_map_of_mem Prod.fst hitem)))) rfl
  refine ⟨st, h1, ?_, ?_⟩
  · have h4 : run_length none (merged_names A B) = first_appearances (merged_names A B) := by
      rw [hnames]
      exact run_length_first_appearances _ (mergeRefs_ascending A B hA hB)
        (fun r hr => hwf r (hmem r hr))
        (fun x hx z hz => hkind x (hmem x hx) z (hmem z hz))
    unfold xdg_app_table_printer_print
    rw [h2, ← h4]
    simp [nonempty_rows, xdg_app_table_printer_new, merged_names]
  · unfold xdg_app_table_printer_print
    rw [h3]
    simp [xdg_app_table_printer_new]

/-! ## Detailed mode -/

theorem strchr_of_mem {ref : CStr} {c : CChar} (h : c ∈ ref) :
    ∃ suffix, strchr ref c = some (c :: suffix) := by
  induction ref with
  | nil => cases h
  | cons x xs ih =>
    by_cases hx : x = c
    · exact ⟨xs, by simp [strchr, hx]⟩
    · have hmem : c ∈ xs := by
        rcases List.mem_cons.mp h with e | hmem
        · exact absurd e.symm hx
        · exact hmem
      obtain ⟨suffix, hs⟩ := ih hmem
      exact ⟨suffix, by simp [strchr, hx, hs]⟩

theorem g_strsplit_head {ref : CStr} (h : ref ≠ []) :
    ∃ kind rest, g_strsplit ref = kind :: rest := by
  unfold g_strsplit
  rw [if_neg h]
  cases hs : splitOn slash ref with
  | nil => exact absurd hs (splitOn_ne_nil slash ref)
  | cons kind rest => exact ⟨kind, rest, rfl⟩

/-- The detailed row of a reference that contains a `/` and has an active commit. -/
theorem annotate_detailed (dirs : Bool → XdgAppDir) (app print_system print_user : Bool)
    (last : Option CStr) (ref : CStr) (is_user : Bool) (a : CStr)
    (hactive : (dirs is_user).read_active ref = some a) (hslash : slash ∈ ref) :
    ∃ suffix kind latest, strchr ref slash = some (slash :: suffix) ∧
      ref_kind ref = some kind ∧
      latest_column (some a)
        ((dirs is_user).read_latest ((dirs is_user).get_origin ref) ref) = some latest ∧
      annotate ⟨true, dirs⟩ app print_system print_user last (ref, is_user) =
        some ⟨[suffix, ((dirs is_user).get_origin ref).getD [], a.take (min a.length 12),
                latest, lit ""],
              scope_tags print_system print_user is_user ++
                kind_tags (dirs is_user) app ref kind⟩ := by
  obtain ⟨suffix, hsuf⟩ := strchr_of_mem hslash
  have hne : ref ≠ [] := by
    intro e
    rw [e] at hslash
    cases hslash
  obtain ⟨kind, rest, hparts⟩ := g_strsplit_head hne
  have hlatest : ∃ latest, latest_column (some a)
      ((dirs is_user).read_latest ((dirs is_user).get_origin ref) ref) = some latest := by
    unfold latest_column
    cases (dirs is_user).read_latest ((dirs is_user).get_origin ref) ref with
    | none => exact ⟨_, rfl⟩
    | some l =>
      by_cases h : strcmp a l = 0
      · exact ⟨lit "-", by simp [h]⟩
      · exact ⟨l.take (min l.length 12), by simp [h]⟩
  obtain ⟨latest, hlat⟩ := hlatest
  have hkind : ref_kind ref = some kind := by simp [ref_kind, hparts]
  have hname : rest.get? 0 = ref_name ref := by simp [ref_name, hparts]
  refine ⟨suffix, kind, latest, hsuf, hkind, hlat, ?_⟩
  simp only [annotate, loop_body, detailed_row, hactive, hlat, hsuf, hparts, if_true,
    Option.map_some', List.tail_cons, List.get?_cons_zero, List.get?_cons_succ, hname]
  by_cases hs : (print_user && print_system) = true
  · by_cases hk : strcmp kind (lit "app") = 0
    · cases hc : (dirs is_user).current_ref (ref_name ref) with
      | none =>
        simp [hs, hk, hc, scope_tags, kind_tags, xdg_app_table_printer_add_column,
          xdg_app_table_printer_append_with_comma, xdg_app_table_printer_finish_row,
          xdg_app_table_printer_new]
      | some current =>
        by_cases he : strcmp ref current = 0
        · simp [hs, hk, hc, he, scope_tags, kind_tags, xdg_app_table_printer_add_column,
            xdg_app_table_printer_append_with_comma, xdg_app_table_printer_finish_row,
            xdg_app_table_printer_new]
        · simp [hs, hk, hc, he, scope_tags, kind_tags, xdg_app_table_printer_add_column,
            xdg_app_table_printer_append_with_comma, xdg_app_table_printer_finish_row,
            xdg_app_table_printer_new]
    · by_cases ha : app = true
      · simp [hs, hk, ha, scope_tags, kind_tags, xdg_app_table_printer_add_column,
          xdg_app_table_printer_append_with_comma, xdg_app_table_printer_finish_row,
          xdg_app_table_printer_new]
      · simp [hs, hk, ha, scope_tags, kind_tags, xdg_app_table_printer_add_column,
          xdg_app_table_printer_append_with_comma, xdg_app_table_printer_finish_row,
          xdg_app_table_printer_new]
  · by_cases hk : strcmp kind (lit "app") = 0
    · cases hc : (dirs is_user).current_ref (ref_name ref) with
      | none =>
        simp [hs, hk, hc, scope_tags, kind_tags, xdg_app_table_printer_add_column,
          xdg_app_table_printer_append_with_comma, xdg_app_table_printer_finish_row,
          xdg_app_table_printer_new]
      | some current =>
        by_cases he : strcmp ref current = 0
        · simp [hs, hk, hc, he, scope_tags, kind_tags, xdg_app_table_printer_add_column,
            xdg_app_table_printer_append_with_comma, xdg_app_table_printer_finish_row,
            xdg_app_table_printer_new]
        · simp [hs, hk, hc, he, scope_tags, kind_tags, xdg_app_table_printer_add_column,
            xdg_app_table_printer_append_with_comma, xdg_app_table_printer_finish_row,
            xdg_app_table_printer_new]
    · by_cases ha : app = true
      · simp [hs, hk, ha, scope_tags, kind_tags, xdg_app_table_printer_add_column,
          xdg_app_table_printer_append_with_comma, xdg_app_table_printer_finish_row,
          xdg_app_table_printer_new]
      · simp [hs, hk, ha, scope_tags, kind_tags, xdg_app_table_printer_add_column,
          xdg_app_table_printer_append_with_comma, xdg_app_table_printer_finish_row,
          xdg_app_table_printer_new]

theorem strchr_none_of_not_mem {ref : CStr} {c : CChar} (h : c ∉ ref) :
    strchr ref c = none := by
  induction ref with
  | nil => rfl
  | cons x xs ih =>
    have hx : ¬ x = c := fun e => h (e ▸ List.mem_cons_self x xs)
    have hxs : c ∉ xs := fun hm => h (List.mem_cons_of_mem x hm)
    simp [strchr, hx, ih hxs]

/-- In detailed mode an absent active commit makes the iteration fault. -/
theorem annotate_detailed_fault_active (dirs : Bool → XdgAppDir)
    (app print_system print_user : Bool) (last : Option CStr) (ref : CStr) (is_user : Bool)
    (h : (dirs is_user).read_active ref = none) :
    annotate ⟨true, dirs⟩ app print_system print_user last (ref, is_user) = none := by
  simp only [annotate, loop_body, detailed_row, h, if_true]
  cases (dirs is_user).read_latest ((dirs is_user).get_origin ref) ref with
  | none =>
    cases (strchr ref slash).map List.tail with
    | none => simp [latest_column]
    | some partial_ref => simp [latest_column]
  | some l => simp [latest_column]

/-- In detailed mode a reference without `/` makes the iteration fault. -/
theorem annotate_detailed_fault_slash (dirs : Bool → XdgAppDir)
    (app print_system print_user : Bool) (last : Option CStr) (ref : CStr) (is_user : Bool)
    (h : slash ∉ ref) :
    annotate ⟨true, dirs⟩ app print_system print_user last (ref, is_user) = none := by
  simp only [annotate, loop_body, detailed_row, strchr_none_of_not_mem h, if_true,
    Option.map_none']
  cases latest_column ((dirs is_user).read_active ref)
      ((dirs is_user).read_latest ((dirs is_user).get_origin ref) ref) with
  | none => rfl
  | some latest => rfl

/-- A detailed row is produced only for a reference that contains a `/` and has an
active commit. -/
theorem annotate_detailed_some (dirs : Bool → XdgAppDir)
    (app print_system print_user : Bool) (last : Option CStr) (ref : CStr) (is_user : Bool)
    (row : Row)
    (h : annotate ⟨true, dirs⟩ app print_system print_user last (ref, is_user) = some row) :
    (∃ a, (dirs is_user).read_active ref = some a) ∧ slash ∈ ref := by
  constructor
  · cases ha : (dirs is_user).read_active ref with
    | none =>
      rw [annotate_detailed_fault_active dirs app print_system print_user last ref is_user ha]
        at h
      cases h
    | some a => exact ⟨a, rfl⟩
  · by_cases hs : slash ∈ ref
    · exact hs
    · rw [annotate_detailed_fault_slash dirs app print_system print_user last ref is_user hs]
        at h
      cases h

/-! ## Claims about the merge -/

/-- C1. Merge correctness: for ascending system and user lists, the references the
merge loop emits (scope tags dropped) are ascending under `strcmp` and are a
permutation of the two lists put together. -/
theorem merge_ascending_perm (A B : List CStr) (hA : ascending A) (hB : ascending B) :
    ascending ((mergeRefs A B).map Prod.fst) ∧ ((mergeRefs A B).map Prod.fst).Perm (A ++ B) :=
  ⟨mergeRefs_ascending A B hA hB, mergeRefs_perm A B⟩

theorem merge_ascending_perm_witness :
    ascending scenario_system ∧ ascending scenario_user ∧
    ascending ((mergeRefs scenario_system scenario_user).map Prod.fst) ∧
    ((mergeRefs scenario_system scenario_user).map Prod.fst).Perm
      (scenario_system ++ scenario_user) :=
  ⟨by decide, by decide, merge_ascending_perm scenario_system scenario_user
    (by decide) (by decide)⟩

/-- C2. Scope provenance: the items tagged system are exactly the system list in its
order, the items tagged user are exactly the user list in its order, and a reference
present in both lists is emitted once with each tag. -/
theorem merge_scope_provenance (A B : List CStr) :
    ((mergeRefs A B).filter (fun item => !item.2)).map Prod.fst = A ∧
    ((mergeRefs A B).filter (fun item => item.2)).map Prod.fst = B ∧
    ∀ r, r ∈ A → r ∈ B → (r, false) ∈ mergeRefs A B ∧ (r, true) ∈ mergeRefs A B :=
  ⟨mergeRefs_filter_system A B, mergeRefs_filter_user A B,
    fun _ hA hB => ⟨mem_mergeRefs_system.mpr hA, mem_mergeRefs_user.mpr hB⟩⟩

theorem merge_scope_provenance_witness :
    lit "app/org.bar/x86_64/stable" ∈ scenario_system ∧
    lit "app/org.bar/x86_64/stable" ∈ scenario_user ∧
    (lit "app/org.bar/x86_64/stable", false) ∈ mergeRefs scenario_system scenario_user ∧
    (lit "app/org.bar/x86_64/stable", true) ∈ mergeRefs scenario_system scenario_user :=
  ⟨by decide, by decide,
    (merge_scope_provenance scenario_system scenario_user).2.2
      (lit "app/org.bar/x86_64/stable") (by decide) (by decide)⟩

/-- C3. Stable tie-break: for ascending duplicate-free lists, a reference `r` present
in both is emitted tagged system and, on the very next iteration, tagged user; no
user copy of `r` comes earlier and no system copy of `r` comes later. -/
theorem merge_tie_break (A B : List CStr) (hA : ascending A) (hAn : A.Nodup)
    (hB : ascending B) (hBn : B.Nodup) (r : CStr) (hrA : r ∈ A) (hrB : r ∈ B) :
    ∃ pre post, mergeRefs A B = pre ++ (r, false) :: (r, true) :: post ∧
      (r, true) ∉ pre ∧ (r, false) ∉ post :=
  mergeRefs_tie A B hA hAn hB hBn r hrA hrB

theorem merge_tie_break_witness :
    ascending scenario_system ∧ scenario_system.Nodup ∧
    ascending scenario_user ∧ scenario_user.Nodup ∧
    lit "app/org.bar/x86_64/stable" ∈ scenario_system ∧
    lit "app/org.bar/x86_64/stable" ∈ scenario_user ∧
    ∃ pre post, mergeRefs scenario_system scenario_user =
        pre ++ (lit "app/org.bar/x86_64/stable", false) ::
          (lit "app/org.bar/x86_64/stable", true) :: post ∧
      (lit "app/org.bar/x86_64/stable", true) ∉ pre ∧
      (lit "app/org.bar/x86_64/stable", false) ∉ post :=
  ⟨by decide, by decide, by decide, by decide, by decide, by decide,
    merge_tie_break scenario_system scenario_user (by decide) (by decide) (by decide)
      (by decide) (lit "app/org.bar/x86_64/stable") (by decide) (by decide)⟩

/-- C4. Merging with an empty side is a pass-through: an empty user list gives the
system list in order, every item tagged system; an empty system list gives the user
list in order, every item tagged user. -/
theorem merge_empty_side (A B : List CStr) :
    mergeRefs A [] = A.map (fun r => (r, false)) ∧
    mergeRefs [] B = B.map (fun r => (r, true)) :=
  ⟨mergeRefs_nil_right A, mergeRefs_nil_left B⟩

/-! ## Claims about the rows -/

/-- C5 fails as stated: with the ascending system list `app/org.foo/x86_64/stable`,
`app/org.zed/x86_64/stable`, `runtime/org.foo/x86_64/stable` (all well-formed) and an
empty user list, compact mode prints three non-empty rows, `org.foo`, `org.zed`,
`org.foo`: the name `org.foo` has two rows, while its distinct names in order of first
appearance are `org.foo`, `org.zed`. -/
theorem compact_reduction_counterexample :
    ascending shared_name_system ∧ ascending ([] : List CStr) ∧
    (∀ r ∈ shared_name_system, well_formed r) ∧
    (run_loop ⟨false, fun _ => sample_dir⟩ true true true (mergeRefs shared_name_system [])
        ⟨none, xdg_app_table_printer_new⟩).map
      (fun st => nonempty_rows (xdg_app_table_printer_print st.printer)) =
      some [name_row (lit "org.foo"), name_row (lit "org.zed"), name_row (lit "org.foo")] ∧
    first_appearances (merged_names shared_name_system []) = [lit "org.foo", lit "org.zed"] ∧
    ¬ compact_reduction (fun _ => sample_dir) true true true shared_name_system [] := by
  refine ⟨by decide, by decide, by decide, by decide, by decide, ?_⟩
  rintro ⟨st, h1, h2, _⟩
  have h0 : run_loop ⟨false, fun _ => sample_dir⟩ true true true
      (mergeRefs shared_name_system []) ⟨none, xdg_app_table_printer_new⟩ =
      some ⟨some (lit "org.foo"),
        ⟨[name_row (lit "org.foo"), name_row (lit "org.zed"), name_row (lit "org.foo")],
          ⟨[], []⟩⟩⟩ := by decide
  rw [h0] at h1
  cases h1
  revert h2
  decide

/-- C5, amended. For ascending system and user lists of well-formed references in
which references with the same name have the same kind (in particular lists of a
single kind), the compact loop completes, its non-empty rows are exactly the distinct
names of the merged items, one row each in order of first appearance, and it finishes
at most as many rows as there are merged items. -/
theorem compact_reduction_same_kind (dirs : Bool → XdgAppDir)
    (app print_system print_user : Bool) (A B : List CStr)
    (hA : ascending A) (hB : ascending B) (hwf : ∀ r ∈ A ++ B, well_formed r)
    (hkind : ∀ x ∈ A ++ B, ∀ z ∈ A ++ B, ref_name x = ref_name z → ref_kind x = ref_kind z) :
    compact_reduction dirs app print_system print_user A B :=
  compact_reduction_of_sorted dirs app print_system print_user A B hA hB hwf hkind

theorem compact_reduction_same_kind_witness :
    ascending scenario_system ∧ ascending scenario_user ∧
    (∀ r ∈ scenario_system ++ scenario_user, well_formed r) ∧
    (∀ x ∈ scenario_system ++ scenario_user, ∀ z ∈ scenario_system ++ scenario_user,
      ref_name x = ref_name z → ref_kind x = ref_kind z) ∧
    compact_reduction (fun _ => sample_dir) true true true
      scenario_system scenario_user :=
  ⟨by decide, by decide, by decide, by decide,
    compact_reduction_same_kind (fun _ => sample_dir) true true true
      scenario_system scenario_user (by decide) (by decide) (by decide) (by decide)⟩

/-- C6. Latest column in detailed mode: for a reference (any string containing a `/`)
whose active commit is present, the row is produced and its fourth column is `?` when
there is no latest commit, `-` when the latest commit equals the untruncated active
commit, and otherwise the first `min (12, length)` bytes of the latest commit. -/
theorem latest_column_format (dirs : Bool → XdgAppDir) (app print_system print_user : Bool)
    (last : Option CStr) (ref : CStr) (is_user : Bool) (a : CStr)
    (hactive : (dirs is_user).read_active ref = some a) (hslash : slash ∈ ref) :
    ∃ row, annotate ⟨true, dirs⟩ app print_system print_user last (ref, is_user) = some row ∧
      row.columns.get? 3 = some
        (match (dirs is_user).read_latest ((dirs is_user).get_origin ref) ref with
         | none => lit "?"
         | some latest => if latest = a then lit "-" else latest.take (min 12 latest.length)) := by
  obtain ⟨suffix, kind, latest, _, _, hlat, hrow⟩ :=
    annotate_detailed dirs app print_system print_user last ref is_user a hactive hslash
  refine ⟨_, hrow, ?_⟩
  simp only [List.get?_cons_succ, List.get?_cons_zero]
  cases hl : (dirs is_user).read_latest ((dirs is_user).get_origin ref) ref with
  | none =>
    rw [hl] at hlat
    simp only [latest_column] at hlat
    exact hlat.symm
  | some l =>
    rw [hl] at hlat
    simp only [latest_column] at hlat
    by_cases h : l = a
    · have h0 : strcmp a l = 0 := strcmp_eq_zero.mpr h.symm
      rw [if_pos h0] at hlat
      simp only [if_pos h]
      exact hlat.symm
    · have h0 : ¬ strcmp a l = 0 := fun e => h (strcmp_eq_zero.mp e).symm
      rw [if_neg h0] at hlat
      simp only [if_neg h, Nat.min_comm 12 l.length]
      exact hlat.symm

theorem latest_column_format_witness :
    sample_dir.read_active (lit "app/org.foo/x86_64/stable") = some (lit "abcdef1234567890") ∧
    slash ∈ lit "app/org.foo/x86_64/stable" ∧
    ∃ row, annotate ⟨true, fun _ => sample_dir⟩ true true true none
        (lit "app/org.foo/x86_64/stable", false) = some row ∧
      row.columns.get? 3 = some
        (match sample_dir.read_latest (sample_dir.get_origin (lit "app/org.foo/x86_64/stable"))
            (lit "app/org.foo/x86_64/stable") with
         | none => lit "?"
         | some latest =>
           if latest = lit "abcdef1234567890" then lit "-"
           else latest.take (min 12 latest.length)) :=
  ⟨rfl, by decide,
    latest_column_format (fun _ => sample_dir) true true true none
      (lit "app/org.foo/x86_64/stable") false (lit "abcdef1234567890") rfl (by decide)⟩

/-- C7, the code at the failing input: for the installed reference
`app/org.foo/x86_64/stable` whose active commit is absent, the detailed row annotator
faults (`strlen (active)` on `NULL`, line 170) instead of producing a row with an empty
active column, and so does `print_installed_refs` on that store. -/
theorem missing_active_faults :
    dir_without_active.list_refs (lit "app") = some [lit "app/org.foo/x86_64/stable"] ∧
    dir_without_active.read_active (lit "app/org.foo/x86_64/stable") = none ∧
    annotate ⟨true, fun _ => dir_without_active⟩ true true false none
      (lit "app/org.foo/x86_64/stable", false) = none ∧
    print_installed_refs ⟨true, fun _ => dir_without_active⟩ true false true false =
      Result.fault := by
  refine ⟨by decide, rfl, by decide, by decide⟩

/-- C8. The `current` tag in detailed mode: for a reference that contains a `/` and has
an active commit (the references for which a detailed row is produced) the row is
produced; when the reference is of kind `app` its tag list contains `current` exactly
when the store's current reference for its name is present and equal to the reference,
and when it is of any other kind its tag list never contains `current`. -/
theorem current_tag (dirs : Bool → XdgAppDir) (app print_system print_user : Bool)
    (last : Option CStr) (ref : CStr) (is_user : Bool) (a : CStr)
    (hactive : (dirs is_user).read_active ref = some a) (hslash : slash ∈ ref) :
    ∃ row, annotate ⟨true, dirs⟩ app print_system print_user last (ref, is_user) = some row ∧
      (ref_kind ref = some (lit "app") →
        (lit "current" ∈ row.tags ↔ (dirs is_user).current_ref (ref_name ref) = some ref)) ∧
      (ref_kind ref ≠ some (lit "app") → lit "current" ∉ row.tags) := by
  obtain ⟨suffix, kind, latest, _, hkind, _, hrow⟩ :=
    annotate_detailed dirs app print_system print_user last ref is_user a hactive hslash
  have hscope : lit "current" ∉ scope_tags print_system print_user is_user := by
    unfold scope_tags
    cases is_user <;> cases (print_user && print_system) <;> decide
  refine ⟨_, hrow, ?_, ?_⟩
  · intro hk
    have hk2 : kind = lit "app" := by
      rw [hkind] at hk
      exact Option.some.inj hk
    have h0 : strcmp kind (lit "app") = 0 := strcmp_eq_zero.mpr hk2
    simp only [List.mem_append, hscope, false_or, kind_tags, if_pos h0]
    cases hc : (dirs is_user).current_ref (ref_name ref) with
    | none => simp
    | some current =>
      by_cases he : ref = current
      · subst he
        simp [strcmp_self]
      · have he2 : ¬ strcmp ref current = 0 := fun e => he (strcmp_eq_zero.mp e)
        have he3 : ¬ current = ref := fun e => he e.symm
        simp [he2, he3]
  · intro hk
    have h0 : ¬ strcmp kind (lit "app") = 0 := by
      intro e
      apply hk
      rw [hkind, strcmp_eq_zero.mp e]
    simp only [List.mem_append, hscope, false_or, kind_tags, if_neg h0]
    cases app <;> decide

theorem current_tag_witness :
    sample_dir.read_active (lit "app/org.foo/x86_64/stable") = some (lit "abcdef1234567890") ∧
    slash ∈ lit "app/org.foo/x86_64/stable" ∧
    ∃ row, annotate ⟨true, fun _ => sample_dir⟩ true true true none
        (lit "app/org.foo/x86_64/stable", false) = some row ∧
      (ref_kind (lit "app/org.foo/x86_64/stable") = some (lit "app") →
        (lit "current" ∈ row.tags ↔
          sample_dir.current_ref (ref_name (lit "app/org.foo/x86_64/stable")) =
            some (lit "app/org.foo/x86_64/stable"))) ∧
      (ref_kind (lit "app/org.foo/x86_64/stable") ≠ some (lit "app") →
        lit "current" ∉ row.tags) :=
  ⟨rfl, by decide,
    current_tag (fun _ => sample_dir) true true true none
      (lit "app/org.foo/x86_64/stable") false (lit "abcdef1234567890") rfl (by decide)⟩

/-! ## Claims about `xdg_app_builtin_list` -/

/-- C9 fails as stated: with neither `--app` nor `--runtime` the call requests apps
only (`app = TRUE`, `runtime = FALSE`), not both kinds; on a system store holding the
application `org.foo` and the runtime `org.base`, `xdg_app_builtin_list` lists
`org.foo` only, while a request for both kinds lists both. -/
theorem kind_default_counterexample :
    no_flags.opt_app = false ∧ no_flags.opt_runtime = false ∧
    (call_arguments no_flags).app = true ∧ (call_arguments no_flags).runtime = false ∧
    ¬ ((call_arguments no_flags).app = true ∧ (call_arguments no_flags).runtime = true) ∧
    xdg_app_builtin_list (some no_flags) (fun s => if s then uninitialized_dir else mixed_dir) =
      Result.success [name_row (lit "org.foo")] ∧
    print_installed_refs ⟨false, fun s => if s then uninitialized_dir else mixed_dir⟩
        true true true true =
      Result.success [name_row (lit "org.foo"), name_row (lit "org.base")] ∧
    xdg_app_builtin_list (some no_flags) (fun s => if s then uninitialized_dir else mixed_dir) ≠
      print_installed_refs
        ⟨no_flags.opt_show_details, fun s => if s then uninitialized_dir else mixed_dir⟩
        true true (call_arguments no_flags).print_system (call_arguments no_flags).print_user := by
  decide

/-- C9, amended. `xdg_app_builtin_list` calls `print_installed_refs` with the kinds
computed at lines 221-225: with neither `--app` nor `--runtime` set it asks for apps
only; with exactly one of the flags set it asks for that kind only; with both set it
asks for both. -/
theorem kind_selection (o : Options) (dirs : Bool → XdgAppDir) :
    xdg_app_builtin_list (some o) dirs =
      print_installed_refs ⟨o.opt_show_details, dirs⟩ (call_arguments o).app
        (call_arguments o).runtime (call_arguments o).print_system
        (call_arguments o).print_user ∧
    (o.opt_app = false → o.opt_runtime = false →
      (call_arguments o).app = true ∧ (call_arguments o).runtime = false ∧
      xdg_app_builtin_list (some o) dirs =
        print_installed_refs ⟨o.opt_show_details, dirs⟩ true false
          (call_arguments o).print_system (call_arguments o).print_user) ∧
    (o.opt_app = true → o.opt_runtime = false →
      (call_arguments o).app = true ∧ (call_arguments o).runtime = false ∧
      xdg_app_builtin_list (some o) dirs =
        print_installed_refs ⟨o.opt_show_details, dirs⟩ true false
          (call_arguments o).print_system (call_arguments o).print_user) ∧
    (o.opt_app = false → o.opt_runtime = true →
      (call_arguments o).app = false ∧ (call_arguments o).runtime = true ∧
      xdg_app_builtin_list (some o) dirs =
        print_installed_refs ⟨o.opt_show_details, dirs⟩ false true
          (call_arguments o).print_system (call_arguments o).print_user) ∧
    (o.opt_app = true → o.opt_runtime = true →
      (call_arguments o).app = true ∧ (call_arguments o).runtime = true ∧
      xdg_app_builtin_list (some o) dirs =
        print_installed_refs ⟨o.opt_show_details, dirs⟩ true true
          (call_arguments o).print_system (call_arguments o).print_user) := by
  refine ⟨rfl, ?_, ?_, ?_, ?_⟩ <;> intro h1 h2 <;>
    simp [xdg_app_builtin_list, call_arguments, h1, h2]

theorem kind_selection_witness :
    no_flags.opt_app = false ∧ no_flags.opt_runtime = false ∧
    (call_arguments no_flags).app = true ∧ (call_arguments no_flags).runtime = false ∧
    xdg_app_builtin_list (some no_flags) (fun _ => mixed_dir) =
      print_installed_refs ⟨no_flags.opt_show_details, fun _ => mixed_dir⟩ true false
        (call_arguments no_flags).print_system (call_arguments no_flags).print_user :=
  ⟨rfl, rfl, (kind_selection no_flags (fun _ => mixed_dir)).2.1 rfl rfl⟩

/-- C10. Scope selection: `xdg_app_builtin_list` calls `print_installed_refs` with
`print_system` set iff `--system` is set or neither scope flag is set, and with
`print_user` set iff `--user` is set or neither is set; at least one scope is always
requested, and both are when neither flag is set. -/
theorem scope_selection (o : Options) (dirs : Bool → XdgAppDir) :
    xdg_app_builtin_list (some o) dirs =
      print_installed_refs ⟨o.opt_show_details, dirs⟩ (call_arguments o).app
        (call_arguments o).runtime (call_arguments o).print_system
        (call_arguments o).print_user ∧
    ((call_arguments o).print_system = true ↔
      (o.opt_system = true ∨ (o.opt_user = false ∧ o.opt_system = false))) ∧
    ((call_arguments o).print_user = true ↔
      (o.opt_user = true ∨ (o.opt_user = false ∧ o.opt_system = false))) ∧
    ((call_arguments o).print_system = true ∨ (call_arguments o).print_user = true) ∧
    (o.opt_user = false → o.opt_system = false →
      (call_arguments o).print_system = true ∧ (call_arguments o).print_user = true ∧
      xdg_app_builtin_list (some o) dirs =
        print_installed_refs ⟨o.opt_show_details, dirs⟩ (call_arguments o).app
          (call_arguments o).runtime true true) ∧
    (o.opt_user = true → o.opt_system = false →
      xdg_app_builtin_list (some o) dirs =
        print_installed_refs ⟨o.opt_show_details, dirs⟩ (call_arguments o).app
          (call_arguments o).runtime false true) ∧
    (o.opt_user = false → o.opt_system = true →
      xdg_app_builtin_list (some o) dirs =
        print_installed_refs ⟨o.opt_show_details, dirs⟩ (call_arguments o).app
          (call_arguments o).runtime true false) ∧
    (o.opt_user = true → o.opt_system = true →
      xdg_app_builtin_list (some o) dirs =
        print_installed_refs ⟨o.opt_show_details, dirs⟩ (call_arguments o).app
          (call_arguments o).runtime true true) := by
  obtain ⟨d, u, s, r, a⟩ := o
  cases u <;> cases s <;> simp [xdg_app_builtin_list, call_arguments]

theorem scope_selection_witness :
    no_flags.opt_user = false ∧ no_flags.opt_system = false ∧
    (call_arguments no_flags).print_system = true ∧
    (call_arguments no_flags).print_user = true ∧
    xdg_app_builtin_list (some no_flags) (fun s => if s then sample_dir else zed_dir) =
      print_installed_refs ⟨no_flags.opt_show_details, fun s => if s then sample_dir else zed_dir⟩
        (call_arguments no_flags).app (call_arguments no_flags).runtime true true ∧
    xdg_app_builtin_list (some no_flags) (fun s => if s then sample_dir else zed_dir) =
      Result.success [name_row (lit "org.foo"), name_row (lit "org.zed")] :=
  have h := (scope_selection no_flags (fun s => if s then sample_dir else zed_dir)).2.2.2.2.1
    rfl rfl
  ⟨rfl, rfl, h.1, h.2.1, h.2.2, by decide⟩

/-! ## The store queries -/

theorem query_scope_eq_none_iff (dir : XdgAppDir) (app runtime : Bool) :
    query_scope dir app runtime = none ↔
      ∃ kind ∈ query_scope_calls dir app runtime, dir.list_refs kind = none := by
  unfold query_scope query_scope_calls
  cases dir.ensure_repo <;> cases app <;> cases runtime <;>
    cases h1 : dir.list_refs (lit "app") <;> cases h2 : dir.list_refs (lit "runtime") <;>
    simp [h1, h2]

theorem mem_query_scope_calls {dir : XdgAppDir} {app runtime : Bool} {kind : CStr}
    (h : kind ∈ query_scope_calls dir app runtime) :
    dir.ensure_repo = true ∧
      ((kind = lit "app" ∧ app = true) ∨ (kind = lit "runtime" ∧ runtime = true)) := by
  unfold query_scope_calls at h
  cases he : dir.ensure_repo <;> cases app <;> cases runtime <;>
    cases h1 : dir.list_refs (lit "app") <;> simp [he, h1] at h ⊢ <;>
    first
    | exact h
    | exact Or.inl h

theorem print_installed_refs_eq_listed (env : Env) (app runtime print_system print_user : Bool) :
    print_installed_refs env app runtime print_system print_user =
      match listed_refs env app runtime print_system print_user with
      | none => Result.failure
      | some (system, user) =>
        match run_loop env app print_system print_user (mergeRefs system user)
            ⟨none, xdg_app_table_printer_new⟩ with
        | none => Result.fault
        | some st => Result.success (xdg_app_table_printer_print st.printer) := by
  unfold print_installed_refs listed_refs
  cases (if print_user then query_scope (env.xdg_app_dir_get true) app runtime
         else some (none, none)) with
  | none => rfl
  | some qu =>
    cases (if print_system then query_scope (env.xdg_app_dir_get false) app runtime
           else some (none, none)) with
    | none => rfl
    | some qs => rfl

theorem listed_refs_eq_none_iff (env : Env) (app runtime print_system print_user : Bool) :
    listed_refs env app runtime print_system print_user = none ↔
      ∃ call ∈ list_refs_calls env app runtime print_system print_user,
        (env.xdg_app_dir_get call.1).list_refs call.2 = none := by
  unfold listed_refs list_refs_calls
  cases print_user <;> cases print_system <;>
    cases hu : query_scope (env.xdg_app_dir_get true) app runtime <;>
    cases hs : query_scope (env.xdg_app_dir_get false) app runtime <;>
    simp [hu, hs, ← query_scope_eq_none_iff]

theorem mem_list_refs_calls {env : Env} {app runtime print_system print_user : Bool}
    {call : Bool × CStr}
    (h : call ∈ list_refs_calls env app runtime print_system print_user) :
    (if call.1 then print_user else print_system) = true ∧
      call.2 ∈ query_scope_calls (env.xdg_app_dir_get call.1) app runtime := by
  unfold list_refs_calls at h
  obtain ⟨scope, kind⟩ := call
  cases print_user <;> cases print_system <;>
    cases hu : query_scope (env.xdg_app_dir_get true) app runtime <;>
    simp [hu] at h ⊢ <;>
    first
    | exact h
    | (rcases h with h | h <;> simp [h])
    | simp [h]

theorem query_scope_uninitialized {dir : XdgAppDir} (app runtime : Bool)
    (h : dir.ensure_repo = false) :
    query_scope dir app runtime = some (none, none) ∧ query_scope_calls dir app runtime = [] := by
  simp [query_scope, query_scope_calls, h]

theorem query_scope_empty_store (dir : XdgAppDir) (app runtime : Bool) :
    ∃ refs_app refs_runtime, query_scope (empty_store dir) app runtime =
        some (refs_app, refs_runtime) ∧ join_strv refs_app refs_runtime = [] := by
  cases app with
  | true =>
    cases runtime with
    | true => exact ⟨some [], some [], rfl, rfl⟩
    | false => exact ⟨some [], none, rfl, rfl⟩
  | false =>
    cases runtime with
    | true => exact ⟨none, some [], rfl, rfl⟩
    | false => exact ⟨none, none, rfl, rfl⟩

theorem listed_refs_with_empty_store (env : Env) (app runtime print_system print_user : Bool)
    (scope : Bool) (h : (env.xdg_app_dir_get scope).ensure_repo = false) :
    listed_refs (with_dir env scope (empty_store (env.xdg_app_dir_get scope)))
      app runtime print_system print_user =
    listed_refs env app runtime print_system print_user := by
  obtain ⟨ra, rr, he, hj⟩ := query_scope_empty_store (env.xdg_app_dir_get scope) app runtime
  have hu := (query_scope_uninitialized app runtime h).1
  have hnn : join_strv none none = [] := rfl
  cases scope with
  | true =>
    cases print_user <;> cases print_system <;>
      cases hs : query_scope (env.xdg_app_dir_get false) app runtime <;>
      simp [listed_refs, with_dir, he, hu, hs, hj, hnn]
  | false =>
    cases print_user <;> cases print_system <;>
      cases hs : query_scope (env.xdg_app_dir_get true) app runtime <;>
      simp [listed_refs, with_dir, he, hu, hs, hj, hnn]

theorem listed_refs_uninitialized (env : Env) (app runtime print_system print_user : Bool)
    (scope : Bool) (h : (env.xdg_app_dir_get scope).ensure_repo = false)
    (system user : List CStr)
    (hl : listed_refs env app runtime print_system print_user = some (system, user)) :
    (if scope then user else system) = [] := by
  have hu := (query_scope_uninitialized app runtime h).1
  cases scope with
  | true =>
    cases print_user <;> cases print_system <;>
      cases hs : query_scope (env.xdg_app_dir_get false) app runtime <;>
      simp [listed_refs, hu, hs, join_strv] at hl <;>
      simp [← hl.2]
  | false =>
    cases print_user <;> cases print_system <;>
      cases hs : query_scope (env.xdg_app_dir_get true) app runtime <;>
      simp [listed_refs, hu, hs, join_strv] at hl <;>
      simp [← hl.1]

theorem loop_body_congr (env env2 : Env) (app print_system print_user : Bool)
    (st : LoopState) (item : CStr × Bool)
    (hd : env.opt_show_details = env2.opt_show_details)
    (hdir : env.xdg_app_dir_get item.2 = env2.xdg_app_dir_get item.2) :
    loop_body env app print_system print_user st item =
      loop_body env2 app print_system print_user st item := by
  simp only [loop_body, hd, hdir]

theorem run_loop_congr (env env2 : Env) (app print_system print_user : Bool)
    (hd : env.opt_show_details = env2.opt_show_details) :
    ∀ (items : List (CStr × Bool)) (st : LoopState),
    (∀ item ∈ items, env.xdg_app_dir_get item.2 = env2.xdg_app_dir_get item.2) →
    run_loop env app print_system print_user items st =
      run_loop env2 app print_system print_user items st := by
  intro items
  induction items with
  | nil => intro st _; rfl
  | cons item items ih =>
    intro st h
    simp only [run_loop]
    rw [loop_body_congr env env2 app print_system print_user st item hd
      (h item (List.mem_cons_self item items))]
    cases loop_body env2 app print_system print_user st item with
    | none => rfl
    | some st2 => exact ih st2 (fun it hit => h it (List.mem_cons_of_mem item hit))

theorem mergeRefs_scope_of_nil {system user : List CStr} (scope : Bool)
    (h : (if scope then user else system) = []) :
    ∀ item ∈ mergeRefs system user, item.2 ≠ scope := by
  intro item hitem hs
  obtain ⟨r, b⟩ := item
  simp only at hs
  subst hs
  cases b with
  | true =>
    simp only [if_true] at h
    have := mem_mergeRefs_user.mp hitem
    rw [h] at this
    cases this
  | false =>
    simp only [Bool.false_eq_true, if_false] at h
    have := mem_mergeRefs_system.mp hitem
    rw [h] at this
    cases this

theorem print_installed_refs_with_empty_store (env : Env)
    (app runtime print_system print_user : Bool) (scope : Bool)
    (h : (env.xdg_app_dir_get scope).ensure_repo = false) :
    print_installed_refs env app runtime print_system print_user =
      print_installed_refs (with_dir env scope (empty_store (env.xdg_app_dir_get scope)))
        app runtime print_system print_user := by
  rw [print_installed_refs_eq_listed, print_installed_refs_eq_listed,
    listed_refs_with_empty_store env app runtime print_system print_user scope h]
  cases hl : listed_refs env app runtime print_system print_user with
  | none => rfl
  | some lists =>
    obtain ⟨system, user⟩ := lists
    have hnil := listed_refs_uninitialized env app runtime print_system print_user scope h
      system user hl
    have hitems := mergeRefs_scope_of_nil scope hnil
    simp only
    rw [run_loop_congr env (with_dir env scope (empty_store (env.xdg_app_dir_get scope)))
      app print_system print_user rfl (mergeRefs system user) ⟨none, xdg_app_table_printer_new⟩
      (fun item hitem => by simp [with_dir, hitems item hitem])]

/-! ## Claims about the store queries -/

/-- C11. Fatal store failures abort before output: when a `list_refs` call that
`print_installed_refs` makes fails, it returns failure, it has returned before the
table printer is created (so no row is added or printed), and the failed call was for
a requested scope whose store is initialised and for a requested kind. -/
theorem store_failure_aborts (env : Env) (app runtime print_system print_user : Bool)
    (call : Bool × CStr)
    (hcall : call ∈ list_refs_calls env app runtime print_system print_user)
    (hfail : (env.xdg_app_dir_get call.1).list_refs call.2 = none) :
    print_installed_refs env app runtime print_system print_user = Result.failure ∧
    listed_refs env app runtime print_system print_user = none ∧
    (∀ rows, print_installed_refs env app runtime print_system print_user ≠
      Result.success rows) ∧
    (if call.1 then print_user else print_system) = true ∧
    (env.xdg_app_dir_get call.1).ensure_repo = true ∧
    ((call.2 = lit "app" ∧ app = true) ∨ (call.2 = lit "runtime" ∧ runtime = true)) := by
  have hnone : listed_refs env app runtime print_system print_user = none :=
    (listed_refs_eq_none_iff env app runtime print_system print_user).mpr ⟨call, hcall, hfail⟩
  have hres : print_installed_refs env app runtime print_system print_user = Result.failure := by
    rw [print_installed_refs_eq_listed, hnone]
  have hmem := mem_list_refs_calls hcall
  have hq := mem_query_scope_calls hmem.2
  refine ⟨hres, hnone, ?_, hmem.1, hq.1, hq.2⟩
  intro rows h
  rw [hres] at h
  cases h

theorem store_failure_aborts_witness :
    (true, lit "app") ∈ list_refs_calls ⟨false, fun _ => failing_dir⟩ true false true true ∧
    failing_dir.list_refs (lit "app") = none ∧
    print_installed_refs ⟨false, fun _ => failing_dir⟩ true false true true = Result.failure :=
  ⟨by decide, rfl,
    (store_failure_aborts ⟨false, fun _ => failing_dir⟩ true false true true (true, lit "app")
      (by decide) rfl).1⟩

/-! ## Detailed mode over the whole loop -/

/-- The detailed branch only touches the row being built. -/
theorem detailed_row_frame (dir : XdgAppDir) (app print_system print_user : Bool)
    (ref : CStr) (is_user : Bool) (parts : List CStr) (partial_ref repo : Option CStr)
    (p : XdgAppTablePrinter) :
    detailed_row dir app print_system print_user ref is_user parts partial_ref repo p =
      (detailed_row dir app print_system print_user ref is_user parts partial_ref repo
        ⟨[], p.current⟩).map (fun q => ⟨p.rows, q.current⟩) := by
  simp only [detailed_row]
  cases latest_column (dir.read_active ref) (dir.read_latest repo ref) with
  | none => rfl
  | some latest =>
    cases partial_ref with
    | none => rfl
    | some partial_ref =>
      cases dir.read_active ref with
      | none => rfl
      | some active =>
        cases parts.get? 0 with
        | none => rfl
        | some kind =>
          simp only
          cases dir.current_ref (parts.get? 1) with
          | none =>
            split_ifs <;> rfl
          | some current =>
            simp only
            split_ifs <;> rfl


theorem loop_body_detailed (dirs : Bool → XdgAppDir) (app print_system print_user : Bool)
    (last : Option CStr) (p : XdgAppTablePrinter) (item : CStr × Bool)
    (hp : p.current = ⟨[], []⟩) :
    loop_body ⟨true, dirs⟩ app print_system print_user ⟨last, p⟩ item =
      (annotate ⟨true, dirs⟩ app print_system print_user last item).map
        (fun row => ⟨last, ⟨p.rows ++ [row], ⟨[], []⟩⟩⟩) := by
  have e : (⟨[], ⟨[], []⟩⟩ : XdgAppTablePrinter) = xdg_app_table_printer_new := rfl
  simp only [annotate, loop_body, if_true]
  rw [detailed_row_frame (dirs item.2) app print_system print_user item.1 item.2
    (g_strsplit item.1) ((strchr item.1 slash).map List.tail) ((dirs item.2).get_origin item.1) p,
    hp, e]
  cases h : detailed_row (dirs item.2) app print_system print_user item.1 item.2
      (g_strsplit item.1) ((strchr item.1 slash).map List.tail)
      ((dirs item.2).get_origin item.1) xdg_app_table_printer_new with
  | none => simp
  | some q => simp [xdg_app_table_printer_finish_row]

theorem run_loop_detailed (dirs : Bool → XdgAppDir) (app print_system print_user : Bool)
    (last : Option CStr) :
    ∀ (items : List (CStr × Bool)) (p : XdgAppTablePrinter), p.current = ⟨[], []⟩ →
    (∀ item ∈ items, ∃ row,
      annotate ⟨true, dirs⟩ app print_system print_user last item = some row) →
    ∃ rows, run_loop ⟨true, dirs⟩ app print_system print_user items ⟨last, p⟩ =
        some ⟨last, ⟨p.rows ++ rows, ⟨[], []⟩⟩⟩ ∧
      List.Forall₂ (fun item row =>
        annotate ⟨true, dirs⟩ app print_system print_user last item = some row) items rows := by
  intro items
  induction items with
  | nil =>
    intro p hp _
    refine ⟨[], ?_, List.Forall₂.nil⟩
    simp only [run_loop, List.append_nil]
    rw [← hp]
  | cons item items ih =>
    intro p hp h
    obtain ⟨row, hrow⟩ := h item (List.mem_cons_self item items)
    obtain ⟨rows, hrun, hall⟩ := ih ⟨p.rows ++ [row], ⟨[], []⟩⟩ rfl
      (fun it hit => h it (List.mem_cons_of_mem item hit))
    refine ⟨row :: rows, ?_, List.Forall₂.cons hrow hall⟩
    simp only [run_loop, loop_body_detailed dirs app print_system print_user last p item hp,
      hrow, Option.map_some']
    rw [hrun]
    simp

theorem mergeRefs_length (A B : List CStr) : (mergeRefs A B).length = A.length + B.length := by
  have h := (mergeRefs_perm A B).length_eq
  simpa using h

theorem mem_mergeRefs_cases {A B : List CStr} {item : CStr × Bool}
    (h : item ∈ mergeRefs A B) :
    (item.2 = false ∧ item.1 ∈ A) ∨ (item.2 = true ∧ item.1 ∈ B) := by
  obtain ⟨r, b⟩ := item
  cases b with
  | false => exact Or.inl ⟨rfl, mem_mergeRefs_system.mp h⟩
  | true => exact Or.inr ⟨rfl, mem_mergeRefs_user.mp h⟩

theorem strchr_split {c : CChar} : ∀ (ref t : CStr), strchr ref c = some t →
    ∃ k suffix, t = c :: suffix ∧ ref = k ++ c :: suffix ∧ c ∉ k := by
  intro ref
  induction ref with
  | nil => intro t h; simp [strchr] at h
  | cons x xs ih =>
    intro t h
    by_cases hx : x = c
    · simp only [strchr, if_pos hx] at h
      refine ⟨[], xs, ?_, ?_, by simp⟩
      · rw [← Option.some.inj h, hx]
      · rw [hx]; rfl
    · simp only [strchr, if_neg hx] at h
      obtain ⟨k, suffix, e1, e2, hk⟩ := ih t h
      refine ⟨x :: k, suffix, e1, by rw [e2]; rfl, ?_⟩
      intro hm
      rcases List.mem_cons.mp hm with e | hm
      · exact hx e.symm
      · exact hk hm

theorem ref_kind_of_split (k suffix : CStr) (hk : slash ∉ k) :
    ref_kind (k ++ slash :: suffix) = some k := by
  have hne : k ++ slash :: suffix ≠ [] := by simp
  simp [ref_kind, g_strsplit, hne, splitOn_append slash k suffix hk]

theorem slash_mem_of_well_formed {r : CStr} (h : well_formed r) : slash ∈ r := by
  obtain ⟨k, n, rest, e, _, _, _, _⟩ := well_formed_start h
  rw [e]
  simp

theorem latest_column_some (a : CStr) (latest : Option CStr) :
    latest_column (some a) latest = some
      (match latest with
       | none => lit "?"
       | some l => if l = a then lit "-" else l.take (min 12 l.length)) := by
  cases latest with
  | none => rfl
  | some l =>
    by_cases h : l = a
    · subst h
      simp [latest_column, strcmp_self]
    · have h0 : ¬ strcmp a l = 0 := fun e => h (strcmp_eq_zero.mp e).symm
      simp [latest_column, h0, h, Nat.min_comm]

theorem mem_kind_tags {dir : XdgAppDir} {app : Bool} {ref kind t : CStr}
    (h : t ∈ kind_tags dir app ref kind) : t = lit "current" ∨ t = lit "runtime" := by
  unfold kind_tags at h
  split at h
  · split at h
    · split at h
      · exact Or.inl (List.mem_singleton.mp h)
      · cases h
    · cases h
  · split at h
    · exact Or.inr (List.mem_singleton.mp h)
    · cases h

theorem query_scope_kinds {dir : XdgAppDir} {app runtime : Bool}
    {refs_app refs_runtime : Option (List CStr)}
    (hq : query_scope dir app runtime = some (refs_app, refs_runtime))
    (hstore : kind_faithful dir) :
    ∀ r ∈ join_strv refs_app refs_runtime,
      (ref_kind r = some (lit "app") ∧ app = true) ∨
      (ref_kind r = some (lit "runtime") ∧ runtime = true) := by
  obtain ⟨h1, h2⟩ := hstore
  unfold query_scope at hq
  cases he : dir.ensure_repo <;> cases app <;> cases runtime <;>
    cases ha : dir.list_refs (lit "app") <;> cases hr : dir.list_refs (lit "runtime") <;>
    simp [he, ha, hr] at hq <;>
    obtain ⟨e1, e2⟩ := hq <;> subst e1 <;> subst e2 <;>
    simp [ha, hr] at h1 h2 <;>
    intro r hmem <;> simp [join_strv] at hmem <;>
    first
    | exact Or.inl ⟨h1 r hmem, rfl⟩
    | exact Or.inr ⟨h2 r hmem, rfl⟩
    | (rcases hmem with hmem | hmem
       · exact Or.inl ⟨h1 r hmem, rfl⟩
       · exact Or.inr ⟨h2 r hmem, rfl⟩)

theorem listed_refs_kinds {env : Env} {app runtime print_system print_user : Bool}
    {system user : List CStr}
    (hl : listed_refs env app runtime print_system print_user = some (system, user))
    (hstore : ∀ scope, kind_faithful (env.xdg_app_dir_get scope)) :
    ∀ r, r ∈ system ∨ r ∈ user →
      (ref_kind r = some (lit "app") ∧ app = true) ∨
      (ref_kind r = some (lit "runtime") ∧ runtime = true) := by
  have hnil : ∀ r ∈ join_strv none none,
      (ref_kind r = some (lit "app") ∧ app = true) ∨
      (ref_kind r = some (lit "runtime") ∧ runtime = true) := by
    intro r hr
    cases hr
  have hscope : ∀ (requested scope : Bool) (q : Option (List CStr) × Option (List CStr)),
      (if requested then query_scope (env.xdg_app_dir_get scope) app runtime
       else some (none, none)) = some q →
      ∀ r ∈ join_strv q.1 q.2,
        (ref_kind r = some (lit "app") ∧ app = true) ∨
        (ref_kind r = some (lit "runtime") ∧ runtime = true) := by
    intro requested scope q hq
    cases requested with
    | false =>
      simp only [Bool.false_eq_true, if_false] at hq
      rw [← Option.some.inj hq]
      exact hnil
    | true =>
      simp only [if_true] at hq
      exact query_scope_kinds hq (hstore scope)
  unfold listed_refs at hl
  cases hu : (if print_user then query_scope (env.xdg_app_dir_get true) app runtime
      else some (none, none)) with
  | none => rw [hu] at hl; cases hl
  | some qu =>
    cases hs : (if print_system then query_scope (env.xdg_app_dir_get false) app runtime
        else some (none, none)) with
    | none => rw [hu, hs] at hl; cases hl
    | some qs =>
      rw [hu, hs] at hl
      simp only [Option.some.injEq, Prod.mk.injEq] at hl
      obtain ⟨e1, e2⟩ := hl
      intro r hr
      rcases hr with hr | hr
      · rw [← e1] at hr
        exact hscope print_system false qs hs r hr
      · rw [← e2] at hr
        exact hscope print_user true qu hu r hr

/-! ## Claims about the detailed rows -/

/-- C13. Scope tag in detailed mode: the row of a merged item (a reference with a `/`
and an active commit, taken from the user list when `is_user` and from the system
list otherwise) carries a scope tag exactly when both scopes were requested; it is
then the first tag, `user` for a user item and `system` for a system item, and the
tag of the other scope is absent. -/
theorem scope_tag (dirs : Bool → XdgAppDir) (app print_system print_user : Bool)
    (last : Option CStr) (ref : CStr) (is_user : Bool) (a : CStr)
    (hactive : (dirs is_user).read_active ref = some a) (hslash : slash ∈ ref) :
    ∃ row, annotate ⟨true, dirs⟩ app print_system print_user last (ref, is_user) = some row ∧
      ((lit "user" ∈ row.tags ∨ lit "system" ∈ row.tags) ↔
        (print_user = true ∧ print_system = true)) ∧
      (print_user = true → print_system = true →
        row.tags.head? = some (if is_user then lit "user" else lit "system") ∧
        (if is_user then lit "system" else lit "user") ∉ row.tags) := by
  obtain ⟨suffix, kind, latest, _, _, _, hrow⟩ :=
    annotate_detailed dirs app print_system print_user last ref is_user a hactive hslash
  have hk1 : lit "user" ∉ kind_tags (dirs is_user) app ref kind := by
    intro h
    rcases mem_kind_tags h with e | e
    · exact absurd e (by decide)
    · exact absurd e (by decide)
  have hk2 : lit "system" ∉ kind_tags (dirs is_user) app ref kind := by
    intro h
    rcases mem_kind_tags h with e | e
    · exact absurd e (by decide)
    · exact absurd e (by decide)
  have hus : lit "user" ≠ lit "system" := by decide
  have hsu : lit "system" ≠ lit "user" := by decide
  refine ⟨_, hrow, ?_, ?_⟩
  · simp only [List.mem_append, hk1, hk2, or_false]
    cases print_user <;> cases print_system <;> cases is_user <;>
      simp [scope_tags, hus, hsu]
  · intro hu hs
    subst hu
    subst hs
    cases is_user <;> simp [scope_tags, hk1, hk2, hus, hsu]

theorem scope_tag_witness :
    sample_dir.read_active (lit "app/org.foo/x86_64/stable") = some (lit "abcdef1234567890") ∧
    slash ∈ lit "app/org.foo/x86_64/stable" ∧
    ∃ row, annotate ⟨true, fun _ => sample_dir⟩ true true true none
        (lit "app/org.foo/x86_64/stable", true) = some row ∧
      ((lit "user" ∈ row.tags ∨ lit "system" ∈ row.tags) ↔ (true = true ∧ true = true)) ∧
      (true = true → true = true →
        row.tags.head? = some (if true then lit "user" else lit "system") ∧
        (if true then lit "system" else lit "user") ∉ row.tags) :=
  ⟨rfl, by decide,
    scope_tag (fun _ => sample_dir) true true true none
      (lit "app/org.foo/x86_64/stable") true (lit "abcdef1234567890") rfl (by decide)⟩

/-- C14. Runtime tag in detailed mode: when the stores return references of the
requested kind, the row of every merged reference (with a `/` and an active commit)
carries `runtime` exactly when the reference is of kind `runtime` and both apps and
runtimes were requested; the row of a reference of kind `app` never carries it, and
no row carries it when apps were not requested. -/
theorem runtime_tag (dirs : Bool → XdgAppDir) (app runtime print_system print_user : Bool)
    (hstore : ∀ scope, kind_faithful (dirs scope))
    (system user : List CStr)
    (hl : listed_refs ⟨true, dirs⟩ app runtime print_system print_user = some (system, user))
    (item : CStr × Bool) (hitem : item ∈ mergeRefs system user)
    (last : Option CStr) (a : CStr)
    (hactive : (dirs item.2).read_active item.1 = some a) (hslash : slash ∈ item.1) :
    ∃ row, annotate ⟨true, dirs⟩ app print_system print_user last item = some row ∧
      (lit "runtime" ∈ row.tags ↔
        (ref_kind item.1 = some (lit "runtime") ∧ app = true ∧ runtime = true)) ∧
      (ref_kind item.1 = some (lit "app") → lit "runtime" ∉ row.tags) ∧
      (app = false → lit "runtime" ∉ row.tags) := by
  obtain ⟨ref, is_user⟩ := item
  obtain ⟨suffix, kind, latest, _, hkind, _, hrow⟩ :=
    annotate_detailed dirs app print_system print_user last ref is_user a hactive hslash
  have hprov := listed_refs_kinds hl hstore ref
    ((mem_mergeRefs_fst (A := system) (B := user)).mp (List.mem_map_of_mem Prod.fst hitem))
  have hscope : lit "runtime" ∉ scope_tags print_system print_user is_user := by
    unfold scope_tags
    cases is_user <;> cases (print_user && print_system) <;> decide
  have hne : lit "runtime" ≠ lit "current" := by decide
  have hra : lit "runtime" ≠ lit "app" := by decide
  have htag : lit "runtime" ∈ kind_tags (dirs is_user) app ref kind ↔
      (¬ kind = lit "app" ∧ app = true) := by
    unfold kind_tags
    by_cases hk : kind = lit "app"
    · rw [if_pos (strcmp_eq_zero.mpr hk)]
      cases (dirs is_user).current_ref (ref_name ref) with
      | none => simp [hk]
      | some current =>
        by_cases he : strcmp ref current = 0
        · simp [he, hk, hne]
        · simp [he, hk]
    · have h0 : ¬ strcmp kind (lit "app") = 0 := fun e => hk (strcmp_eq_zero.mp e)
      rw [if_neg h0]
      cases app <;> simp [hk]
  simp only at hprov hkind ⊢
  rw [hkind] at hprov ⊢
  refine ⟨_, hrow, ?_, ?_, ?_⟩
  · simp only [List.mem_append, hscope, false_or, htag, Option.some.injEq]
    constructor
    · rintro ⟨hk, ha⟩
      rcases hprov with ⟨e, _⟩ | ⟨e, hr⟩
      · exact absurd (Option.some.inj e) hk
      · exact ⟨Option.some.inj e, ha, hr⟩
    · rintro ⟨hk, ha, _⟩
      exact ⟨by rw [hk]; exact hra, ha⟩
  · intro hk
    simp only [List.mem_append, hscope, false_or, htag]
    rintro ⟨h1, _⟩
    exact h1 (Option.some.inj hk)
  · intro ha
    subst ha
    simp [hscope, htag]

theorem runtime_tag_witness :
    (∀ scope : Bool, kind_faithful ((fun _ => mixed_dir) scope)) ∧
    listed_refs ⟨true, fun _ => mixed_dir⟩ true true true false =
      some ([lit "app/org.foo/x86_64/stable", lit "runtime/org.base/x86_64/stable"], []) ∧
    (lit "runtime/org.base/x86_64/stable", false) ∈
      mergeRefs [lit "app/org.foo/x86_64/stable", lit "runtime/org.base/x86_64/stable"] [] ∧
    mixed_dir.read_active (lit "runtime/org.base/x86_64/stable") =
      some (lit "abcdef1234567890") ∧
    slash ∈ lit "runtime/org.base/x86_64/stable" ∧
    ∃ row, annotate ⟨true, fun _ => mixed_dir⟩ true true false none
        (lit "runtime/org.base/x86_64/stable", false) = some row ∧
      (lit "runtime" ∈ row.tags ↔
        (ref_kind (lit "runtime/org.base/x86_64/stable") = some (lit "runtime") ∧
          true = true ∧ true = true)) ∧
      (ref_kind (lit "runtime/org.base/x86_64/stable") = some (lit "app") →
        lit "runtime" ∉ row.tags) ∧
      (true = false → lit "runtime" ∉ row.tags) :=
  ⟨fun _ => (by decide : kind_faithful mixed_dir), by decide, by decide, rfl, by decide,
    runtime_tag (fun _ => mixed_dir) true true true false
      (fun _ => (by decide : kind_faithful mixed_dir))
      [lit "app/org.foo/x86_64/stable", lit "runtime/org.base/x86_64/stable"] []
      (by decide) (lit "runtime/org.base/x86_64/stable", false) (by decide) none
      (lit "abcdef1234567890") rfl (by decide)⟩

/-- C15. Detailed-mode row shape: for lists of well-formed references with present
active commits, the detailed loop completes and finishes exactly `|A| + |B|` rows, one
per merged item in merge order; the row of an item has five columns: the partial
reference `p` with `kind ++ "/" ++ p` equal to the reference, the origin (empty when
absent), the first `min (12, length)` bytes of the active commit, the latest column,
and the empty string. -/
theorem detailed_row_shape (dirs : Bool → XdgAppDir) (app print_system print_user : Bool)
    (A B : List CStr)
    (hA : ∀ r ∈ A, well_formed r ∧ ∃ a, (dirs false).read_active r = some a)
    (hB : ∀ r ∈ B, well_formed r ∧ ∃ a, (dirs true).read_active r = some a) :
    ∃ rows, run_loop ⟨true, dirs⟩ app print_system print_user (mergeRefs A B)
        ⟨none, xdg_app_table_printer_new⟩ = some ⟨none, ⟨rows, ⟨[], []⟩⟩⟩ ∧
      rows.length = A.length + B.length ∧
      List.Forall₂ (fun item row =>
        ∃ kind p a, ref_kind item.1 = some kind ∧ item.1 = kind ++ slash :: p ∧
          (dirs item.2).read_active item.1 = some a ∧
          row.columns =
            [p, ((dirs item.2).get_origin item.1).getD [], a.take (min 12 a.length),
             (match (dirs item.2).read_latest ((dirs item.2).get_origin item.1) item.1 with
              | none => lit "?"
              | some l => if l = a then lit "-" else l.take (min 12 l.length)),
             lit ""])
        (mergeRefs A B) rows := by
  have hitems : ∀ item ∈ mergeRefs A B,
      slash ∈ item.1 ∧ ∃ a, (dirs item.2).read_active item.1 = some a := by
    intro item hitem
    rcases mem_mergeRefs_cases hitem with ⟨e, hm⟩ | ⟨e, hm⟩
    · rw [e]
      exact ⟨slash_mem_of_well_formed (hA item.1 hm).1, (hA item.1 hm).2⟩
    · rw [e]
      exact ⟨slash_mem_of_well_formed (hB item.1 hm).1, (hB item.1 hm).2⟩
  obtain ⟨rows, hrun, hall⟩ := run_loop_detailed dirs app print_system print_user none
    (mergeRefs A B) xdg_app_table_printer_new rfl
    (fun item hitem => by
      obtain ⟨hs, a, ha⟩ := hitems item hitem
      obtain ⟨_, _, _, _, _, _, hrow⟩ :=
        annotate_detailed dirs app print_system print_user none item.1 item.2 a ha hs
      exact ⟨_, hrow⟩)
  refine ⟨rows, ?_, ?_, ?_⟩
  · rw [hrun]
    simp [xdg_app_table_printer_new]
  · rw [← hall.length_eq, mergeRefs_length]
  · have hmem : ∀ item row, item ∈ mergeRefs A B →
        annotate ⟨true, dirs⟩ app print_system print_user none item = some row →
        ∃ kind p a, ref_kind item.1 = some kind ∧ item.1 = kind ++ slash :: p ∧
          (dirs item.2).read_active item.1 = some a ∧
          row.columns =
            [p, ((dirs item.2).get_origin item.1).getD [], a.take (min 12 a.length),
             (match (dirs item.2).read_latest ((dirs item.2).get_origin item.1) item.1 with
              | none => lit "?"
              | some l => if l = a then lit "-" else l.take (min 12 l.length)),
             lit ""] := by
      intro item row hitem hrow
      obtain ⟨hs, a, ha⟩ := hitems item hitem
      obtain ⟨suffix, kind, latest, hsuf, hkind, hlat, hrow2⟩ :=
        annotate_detailed dirs app print_system print_user none item.1 item.2 a ha hs
      rw [hrow] at hrow2
      obtain ⟨k, suffix2, e1, e2, hk⟩ := strchr_split item.1 _ hsuf
      have esuf : suffix = suffix2 := (List.cons.inj e1).2
      subst esuf
      have ek : kind = k := by
        have h2 := ref_kind_of_split k suffix hk
        rw [← e2, hkind] at h2
        exact Option.some.inj h2
      subst ek
      rw [latest_column_some] at hlat
      refine ⟨kind, suffix, a, hkind, e2, ha, ?_⟩
      rw [Option.some.inj hrow2, ← Option.some.inj hlat, Nat.min_comm 12 a.length]
    have hgen : ∀ (items : List (CStr × Bool)) (rs : List Row),
        (∀ item ∈ items, item ∈ mergeRefs A B) →
        List.Forall₂ (fun item row =>
          annotate ⟨true, dirs⟩ app print_system print_user none item = some row) items rs →
        List.Forall₂ (fun item row =>
          ∃ kind p a, ref_kind item.1 = some kind ∧ item.1 = kind ++ slash :: p ∧
            (dirs item.2).read_active item.1 = some a ∧
            row.columns =
              [p, ((dirs item.2).get_origin item.1).getD [], a.take (min 12 a.length),
               (match (dirs item.2).read_latest ((dirs item.2).get_origin item.1) item.1 with
                | none => lit "?"
                | some l => if l = a then lit "-" else l.take (min 12 l.length)),
               lit ""]) items rs := by
      intro items rs hsub h
      induction h with
      | nil => exact List.Forall₂.nil
      | cons hhead _ ih =>
        exact List.Forall₂.cons (hmem _ _ (hsub _ (List.mem_cons_self _ _)) hhead)
          (ih (fun it hit => hsub it (List.mem_cons_of_mem _ hit)))
    exact hgen (mergeRefs A B) rows (fun _ h => h) hall

theorem detailed_row_shape_witness :
    (∀ r ∈ scenario_system, well_formed r ∧
      ∃ a, ((fun _ : Bool => sample_dir) false).read_active r = some a) ∧
    (∀ r ∈ scenario_user, well_formed r ∧
      ∃ a, ((fun _ : Bool => sample_dir) true).read_active r = some a) ∧
    ∃ rows, run_loop ⟨true, fun _ => sample_dir⟩ true true true
        (mergeRefs scenario_system scenario_user)
        ⟨none, xdg_app_table_printer_new⟩ = some ⟨none, ⟨rows, ⟨[], []⟩⟩⟩ ∧
      rows.length = scenario_system.length + scenario_user.length ∧
      List.Forall₂ (fun item row =>
        ∃ kind p a, ref_kind item.1 = some kind ∧ item.1 = kind ++ slash :: p ∧
          ((fun _ : Bool => sample_dir) item.2).read_active item.1 = some a ∧
          row.columns =
            [p, (((fun _ : Bool => sample_dir) item.2).get_origin item.1).getD [],
             a.take (min 12 a.length),
             (match ((fun _ : Bool => sample_dir) item.2).read_latest
                (((fun _ : Bool => sample_dir) item.2).get_origin item.1) item.1 with
              | none => lit "?"
              | some l => if l = a then lit "-" else l.take (min 12 l.length)),
             lit ""])
        (mergeRefs scenario_system scenario_user) rows :=
  have hwf : ∀ r ∈ scenario_system ++ scenario_user, well_formed r := by decide
  ⟨fun r hr => ⟨hwf r (List.mem_append_left _ hr), _, rfl⟩,
    fun r hr => ⟨hwf r (List.mem_append_right _ hr), _, rfl⟩,
    detailed_row_shape (fun _ => sample_dir) true true true scenario_system scenario_user
      (fun r hr => ⟨hwf r (List.mem_append_left _ hr), _, rfl⟩)
      (fun r hr => ⟨hwf r (List.mem_append_right _ hr), _, rfl⟩)⟩

/-! ## Compact mode as a run-length reduction -/

theorem collapse_runs_cons (a : CStr) (l : List CStr) :
    collapse_runs (a :: l) = a :: run_length (some a) l := by
  induction l generalizing a with
  | nil => rfl
  | cons b l ih =>
    by_cases h : a = b
    · subst h
      simp only [collapse_runs, run_length, if_true]
      exact ih a
    · have h2 : ¬ some a = some b := fun e => h (Option.some.inj e)
      simp only [collapse_runs, run_length, if_neg h, if_neg h2]
      rw [ih b]

theorem run_length_eq_collapse (l : List CStr) : run_length none l = collapse_runs l := by
  cases l with
  | nil => rfl
  | cons a l =>
    rw [collapse_runs_cons]
    simp [run_length]

theorem run_length_chain (l : List CStr) : ∀ last : Option CStr,
    List.Chain' (fun a b => a ≠ b) (run_length last l) ∧
    ∀ a, last = some a → ∀ e, (run_length last l).head? = some e → a ≠ e := by
  induction l with
  | nil =>
    intro last
    exact ⟨List.chain'_nil, fun a _ e h => by simp [run_length] at h⟩
  | cons n ns ih =>
    intro last
    by_cases h : last = some n
    · simp only [run_length, if_pos h]
      exact ih last
    · simp only [run_length, if_neg h]
      obtain ⟨hc, hh⟩ := ih (some n)
      refine ⟨?_, ?_⟩
      · rw [List.chain'_cons']
        exact ⟨fun e he => hh n rfl e he, hc⟩
      · intro a ha e he
        simp only [List.head?_cons, Option.some.injEq] at he
        intro e2
        apply h
        rw [ha, e2, he]

theorem run_length_subset (l : List CStr) : ∀ (last : Option CStr) (x : CStr),
    x ∈ run_length last l → x ∈ l := by
  induction l with
  | nil => intro last x h; simp [run_length] at h
  | cons n ns ih =>
    intro last x h
    by_cases hl : last = some n
    · simp only [run_length, if_pos hl] at h
      exact List.mem_cons_of_mem n (ih last x h)
    · simp only [run_length, if_neg hl] at h
      rcases List.mem_cons.mp h with e | h
      · rw [e]; exact List.mem_cons_self n ns
      · exact List.mem_cons_of_mem n (ih (some n) x h)

theorem mem_run_length (l : List CStr) : ∀ (last : Option CStr) (x : CStr),
    x ∈ l → x ∈ run_length last l ∨ last = some x := by
  induction l with
  | nil => intro last x h; cases h
  | cons n ns ih =>
    intro last x h
    by_cases hl : last = some n
    · simp only [run_length, if_pos hl]
      rcases List.mem_cons.mp h with e | h
      · right; rw [hl, e]
      · exact ih last x h
    · simp only [run_length, if_neg hl]
      rcases List.mem_cons.mp h with e | h
      · left; rw [e]; exact List.mem_cons_self n _
      · rcases ih (some n) x h with h2 | h2
        · left; exact List.mem_cons_of_mem n h2
        · left
          rw [Option.some.inj h2]
          exact List.mem_cons_self x _

theorem mem_run_length_none (l : List CStr) (x : CStr) :
    x ∈ run_length none l ↔ x ∈ l := by
  constructor
  · exact run_length_subset l none x
  · intro h
    rcases mem_run_length l none x h with h2 | h2
    · exact h2
    · cases h2

/-! ## The order of the names in compact mode -/

theorem strcmp_append_left (p a b : CStr) : strcmp (p ++ a) (p ++ b) = strcmp a b := by
  induction p with
  | nil => rfl
  | cons c p ih => simp [strcmp, ih]

/-- The comparison of `n/...` with `m/...` is decided inside `n/` and `m/` when the
names differ. -/
theorem strcmp_name_slash (n : CStr) : ∀ (m rx rz : CStr), slash ∉ n → slash ∉ m → n ≠ m →
    strcmp (n ++ slash :: rx) (m ++ slash :: rz) = strcmp (n ++ [slash]) (m ++ [slash]) := by
  induction n with
  | nil =>
    intro m rx rz _ hm hne
    cases m with
    | nil => exact absurd rfl hne
    | cons d m =>
      have hd : ¬ slash = d := fun e => hm (e ▸ List.mem_cons_self d m)
      simp [strcmp, hd]
  | cons c n ih =>
    intro m rx rz hn hm hne
    have hc : ¬ c = slash := fun e => hn (e ▸ List.mem_cons_self c n)
    cases m with
    | nil => simp [strcmp, hc]
    | cons d m =>
      by_cases hcd : c = d
      · subst hcd
        have hn2 : slash ∉ n := fun h => hn (List.mem_cons_of_mem c h)
        have hm2 : slash ∉ m := fun h => hm (List.mem_cons_of_mem c h)
        have hne2 : n ≠ m := fun e => hne (by rw [e])
        simp only [List.cons_append, strcmp, if_true]
        exact ih m rx rz hn2 hm2 hne2
      · simp [strcmp, hcd]

/-- Well-formed references of the same kind are ordered like their names followed by
`/`. -/
theorem name_slash_le_of_ref_le {x z nx nz : CStr} (hx : well_formed x) (hz : well_formed z)
    (hkind : ref_kind x = ref_kind z) (hnx : ref_name x = some nx) (hnz : ref_name z = some nz)
    (h : strcmp x z ≤ 0) : strcmp (nx ++ [slash]) (nz ++ [slash]) ≤ 0 := by
  obtain ⟨k, n, rx, ex, hk, hn, hkx, hnx2⟩ := well_formed_start hx
  obtain ⟨k2, n2, rz, ez, _, hn2, hkz, hnz2⟩ := well_formed_start hz
  have ek : k2 = k := by
    rw [hkx, hkz] at hkind
    exact (Option.some.inj hkind).symm
  have e1 : n = nx := by
    rw [hnx2] at hnx
    exact Option.some.inj hnx
  have e2 : n2 = nz := by
    rw [hnz2] at hnz
    exact Option.some.inj hnz
  subst ek
  subst e1
  subst e2
  by_cases hne : n = n2
  · rw [hne, strcmp_self]
  · have hx2 : x = (k2 ++ [slash]) ++ (n ++ slash :: rx) := by rw [ex]; simp
    have hz2 : z = (k2 ++ [slash]) ++ (n2 ++ slash :: rz) := by rw [ez]; simp
    rw [hx2, hz2, strcmp_append_left, strcmp_name_slash n n2 rx rz hn hn2 hne] at h
    exact h

theorem names_ascending_with_slash (M : List CStr) (hasc : ascending M)
    (hwf : ∀ r ∈ M, well_formed r) (hkind : ∀ x ∈ M, ∀ z ∈ M, ref_kind x = ref_kind z) :
    (M.filterMap ref_name).Pairwise
      (fun n m => strcmp (n ++ [slash]) (m ++ [slash]) ≤ 0) := by
  induction M with
  | nil => exact List.Pairwise.nil
  | cons x xs ih =>
    obtain ⟨nx, hnx⟩ := ref_name_of_well_formed (hwf x (List.mem_cons_self x xs))
    rw [List.filterMap_cons_some hnx, List.pairwise_cons]
    have hpw := List.pairwise_cons.mp hasc
    refine ⟨?_, ih hpw.2 (fun r hr => hwf r (List.mem_cons_of_mem x hr))
      (fun a ha b hb => hkind a (List.mem_cons_of_mem x ha) b (List.mem_cons_of_mem x hb))⟩
    intro m hm
    obtain ⟨z, hz, hnz⟩ := List.mem_filterMap.mp hm
    exact name_slash_le_of_ref_le (hwf x (List.mem_cons_self x xs))
      (hwf z (List.mem_cons_of_mem x hz))
      (hkind x (List.mem_cons_self x xs) z (List.mem_cons_of_mem x hz)) hnx hnz (hpw.1 z hz)

theorem name_slash_lt_of_le_of_ne {a b : CStr}
    (h : strcmp (a ++ [slash]) (b ++ [slash]) ≤ 0) (hne : a ≠ b) :
    strcmp (a ++ [slash]) (b ++ [slash]) < 0 := by
  have h2 : strcmp (a ++ [slash]) (b ++ [slash]) ≠ 0 := by
    intro e
    exact hne (List.append_cancel_right (strcmp_eq_zero.mp e))
  omega

theorem strcmp_lt_of_le_of_lt {a b c : CStr} (hab : strcmp a b ≤ 0) (hbc : strcmp b c < 0) :
    strcmp a c < 0 := by
  have h1 : strcmp a c ≤ 0 := strcmp_trans hab (Int.le_of_lt hbc)
  have h2 : strcmp a c ≠ 0 := by
    intro e
    have e2 : a = c := strcmp_eq_zero.mp e
    subst e2
    rw [strcmp_swap a b] at hbc
    omega
  omega

/-- On names ascending with the slash appended, the run-length reduction is strictly
ascending in that order. -/
theorem run_length_strict (l : List CStr) : ∀ last : Option CStr,
    l.Pairwise (fun n m => strcmp (n ++ [slash]) (m ++ [slash]) ≤ 0) →
    (∀ a, last = some a → ∀ x ∈ l, strcmp (a ++ [slash]) (x ++ [slash]) ≤ 0) →
    (run_length last l).Pairwise (fun n m => strcmp (n ++ [slash]) (m ++ [slash]) < 0) ∧
    ∀ a, last = some a → ∀ e ∈ run_length last l,
      strcmp (a ++ [slash]) (e ++ [slash]) < 0 := by
  induction l with
  | nil =>
    intro last _ _
    exact ⟨List.Pairwise.nil, fun a _ e h => by simp [run_length] at h⟩
  | cons n ns ih =>
    intro last hpw hlast
    have hpw2 := List.pairwise_cons.mp hpw
    by_cases h : last = some n
    · simp only [run_length, if_pos h]
      exact ih last hpw2.2 (fun a ha x hx => hlast a ha x (List.mem_cons_of_mem n hx))
    · simp only [run_length, if_neg h]
      obtain ⟨hp, hlt⟩ := ih (some n) hpw2.2 (fun a ha x hx => by
        rw [← Option.some.inj ha]
        exact hpw2.1 x hx)
      refine ⟨List.pairwise_cons.mpr ⟨fun e he => hlt n rfl e he, hp⟩, ?_⟩
      intro a ha e he
      have han : strcmp (a ++ [slash]) (n ++ [slash]) < 0 :=
        name_slash_lt_of_le_of_ne (hlast a ha n (List.mem_cons_self n ns))
          (fun e2 => h (by rw [ha, e2]))
      rcases List.mem_cons.mp he with e2 | he
      · rw [e2]; exact han
      · exact strcmp_lt_of_le_of_lt (Int.le_of_lt han) (hlt n rfl e he)

/-- When `m` is not a proper start of `n`, the order of `n/` and `m/` is the order of
`n` and `m`. -/
theorem strcmp_lt_of_name_slash_lt (n : CStr) : ∀ m : CStr,
    strcmp (n ++ [slash]) (m ++ [slash]) < 0 → (m <+: n → m = n) → strcmp n m < 0 := by
  induction n with
  | nil =>
    intro m h _
    cases m with
    | nil => simp [strcmp] at h
    | cons d m =>
      have := d.property.1
      simp only [strcmp]
      omega
  | cons c n ih =>
    intro m h hp
    cases m with
    | nil => exact absurd (hp List.nil_prefix) (by simp)
    | cons d m =>
      by_cases hcd : c = d
      · subst hcd
        simp only [List.cons_append, strcmp, if_true] at h ⊢
        refine ih m h ?_
        intro hpre
        have h2 := hp ((List.cons_prefix_cons).mpr ⟨rfl, hpre⟩)
        exact (List.cons.inj h2).2
      · simp only [List.cons_append, strcmp, if_neg hcd] at h ⊢
        exact h

/-- In an ascending sequence of well-formed items in which equal names have equal
kinds, the items with a given name form one block. -/
theorem contiguous_block (L : List (CStr × Bool)) :
    ascending (L.map Prod.fst) → (∀ item ∈ L, well_formed item.1) →
    (∀ x ∈ L, ∀ z ∈ L, ref_name x.1 = ref_name z.1 → ref_kind x.1 = ref_kind z.1) →
    ∀ n : CStr, ∃ pre block post, L = pre ++ block ++ post ∧
      (∀ item ∈ block, ref_name item.1 = some n) ∧
      (∀ item ∈ pre, ref_name item.1 ≠ some n) ∧
      (∀ item ∈ post, ref_name item.1 ≠ some n) := by
  induction L with
  | nil =>
    intro _ _ _ n
    exact ⟨[], [], [], rfl, by simp, by simp, by simp⟩
  | cons x xs ih =>
    intro hasc hwf hkind n
    have hpw : (∀ r ∈ xs.map Prod.fst, strcmp x.1 r ≤ 0) ∧ ascending (xs.map Prod.fst) := by
      have := hasc
      unfold ascending at this ⊢
      rw [List.map_cons, List.pairwise_cons] at this
      exact this
    obtain ⟨pre, block, post, e, hb, hpre, hpost⟩ := ih hpw.2
      (fun it hit => hwf it (List.mem_cons_of_mem x hit))
      (fun a ha b hb => hkind a (List.mem_cons_of_mem x ha) b (List.mem_cons_of_mem x hb)) n
    by_cases hx : ref_name x.1 = some n
    · cases pre with
      | nil =>
        refine ⟨[], x :: block, post, by rw [e]; rfl, ?_, by simp, hpost⟩
        intro it hit
        rcases List.mem_cons.mp hit with e2 | hit
        · rw [e2]; exact hx
        · exact hb it hit
      | cons y pre2 =>
        have hy : ref_name y.1 ≠ some n := hpre y (List.mem_cons_self y pre2)
        have hblock : block = [] := by
          cases block with
          | nil => rfl
          | cons b block2 =>
            exfalso
            have hymem : y ∈ xs := by rw [e]; simp
            have hbmem : b ∈ xs := by rw [e]; simp
            have hxy : strcmp x.1 y.1 ≤ 0 := hpw.1 y.1 (List.mem_map_of_mem Prod.fst hymem)
            have hyb : strcmp y.1 b.1 ≤ 0 := by
              have h2 := hpw.2
              unfold ascending at h2
              rw [e] at h2
              simp only [List.cons_append, List.map_cons, List.map_append,
                List.pairwise_cons] at h2
              exact h2.1 b.1 (by simp)
            have hbn : ref_name b.1 = some n := hb b (List.mem_cons_self b block2)
            have hname : ref_name x.1 = ref_name b.1 := by rw [hx, hbn]
            have hbetween := ref_name_between hxy hyb (hwf x (List.mem_cons_self x xs))
              (hwf b (List.mem_cons_of_mem x hbmem)) hname
              (hkind x (List.mem_cons_self x xs) b (List.mem_cons_of_mem x hbmem) hname)
            rw [hx] at hbetween
            exact hy hbetween
        subst hblock
        refine ⟨[], [x], xs, rfl, ?_, by simp, ?_⟩
        · intro it hit
          rw [List.mem_singleton.mp hit]
          exact hx
        · intro it hit
          rw [e] at hit
          simp only [List.append_nil, List.mem_append] at hit
          rcases hit with hit | hit
          · exact hpre it hit
          · exact hpost it hit
    · refine ⟨x :: pre, block, post, by rw [e]; rfl, hb, ?_, hpost⟩
      intro it hit
      rcases List.mem_cons.mp hit with e2 | hit
      · rw [e2]; exact hx
      · exact hpre it hit

/-- Compact mode on references that all have a name component emits the run-length
reduction of the merged names. -/
theorem compact_emits_run_length (dirs : Bool → XdgAppDir)
    (app print_system print_user : Bool) (A B : List CStr)
    (hname : ∀ r ∈ A ++ B, ∃ n, ref_name r = some n) :
    compact_emits dirs app print_system print_user A B (run_length none (merged_names A B)) := by
  obtain ⟨st, h1, h2, _, _⟩ := run_loop_compact dirs app print_system print_user
    (mergeRefs A B) none xdg_app_table_printer_new
    (fun item hitem => hname item.1 (List.mem_append.mpr
      (mem_mergeRefs_fst.mp (List.mem_map_of_mem Prod.fst hitem)))) rfl
  refine ⟨st, h1, ?_⟩
  unfold xdg_app_table_printer_print
  rw [h2]
  simp [nonempty_rows, xdg_app_table_printer_new, merged_names]

theorem merged_names_eq (A B : List CStr) :
    merged_names A B = ((mergeRefs A B).map Prod.fst).filterMap ref_name := by
  unfold merged_names
  rw [List.filterMap_map]
  rfl

/-- The names emitted on ascending well-formed lists of a single kind are strictly
ascending with the slash appended. -/
theorem run_length_merged_strict (A B : List CStr) (hA : ascending A) (hB : ascending B)
    (hwf : ∀ r ∈ A ++ B, well_formed r)
    (hkind : ∀ x ∈ A ++ B, ∀ z ∈ A ++ B, ref_kind x = ref_kind z) :
    (run_length none (merged_names A B)).Pairwise
      (fun n m => strcmp (n ++ [slash]) (m ++ [slash]) < 0) := by
  have hmem : ∀ r, r ∈ (mergeRefs A B).map Prod.fst → r ∈ A ++ B :=
    fun r hr => List.mem_append.mpr (mem_mergeRefs_fst.mp hr)
  have hsorted := names_ascending_with_slash ((mergeRefs A B).map Prod.fst)
    (mergeRefs_ascending A B hA hB) (fun r hr => hwf r (hmem r hr))
    (fun x hx z hz => hkind x (hmem x hx) z (hmem z hz))
  rw [← merged_names_eq] at hsorted
  exact (run_length_strict (merged_names A B) none hsorted (fun a ha => by cases ha)).1

/-! ## Claims about compact mode -/

/-- C16. Compact mode is a run-length reduction: for all lists (ascending or not) of
references that have a name component, the names held by the non-empty compact rows
are the names of the merged items with each maximal run of equal consecutive names
collapsed to one; no two consecutive rows hold the same name. -/
theorem compact_run_length (dirs : Bool → XdgAppDir) (app print_system print_user : Bool)
    (A B : List CStr) (hname : ∀ r ∈ A ++ B, ∃ n, ref_name r = some n) :
    compact_emits dirs app print_system print_user A B (collapse_runs (merged_names A B)) ∧
    List.Chain' (fun n m => n ≠ m) (collapse_runs (merged_names A B)) := by
  rw [← run_length_eq_collapse]
  exact ⟨compact_emits_run_length dirs app print_system print_user A B hname,
    (run_length_chain (merged_names A B) none).1⟩

theorem compact_run_length_witness :
    (∀ r ∈ shared_name_system ++ [], ∃ n, ref_name r = some n) ∧
    compact_emits (fun _ => sample_dir) true true true shared_name_system []
      (collapse_runs (merged_names shared_name_system [])) ∧
    List.Chain' (fun n m => n ≠ m) (collapse_runs (merged_names shared_name_system [])) :=
  have hname : ∀ r ∈ shared_name_system ++ [], ∃ n, ref_name r = some n :=
    fun r hr => ref_name_of_well_formed
      ((by decide : ∀ r ∈ shared_name_system ++ [], well_formed r) r hr)
  ⟨hname, compact_run_length (fun _ => sample_dir) true true true shared_name_system [] hname⟩

/-- C17 fails as stated: the ascending duplicate-free list of well-formed applications
`app/org.foo.bar/x86_64/stable`, `app/org.foo/x86_64/stable` (`.` is below `/`) makes
compact mode emit `org.foo.bar` and then `org.foo`, and `org.foo.bar` is above
`org.foo` under `strcmp`. -/
theorem compact_order_counterexample :
    ascending nested_name_system ∧ nested_name_system.Nodup ∧
    (∀ r ∈ nested_name_system, well_formed r) ∧
    (∀ x ∈ nested_name_system, ∀ z ∈ nested_name_system, ref_kind x = ref_kind z) ∧
    compact_emits (fun _ => sample_dir) true true true nested_name_system []
      [lit "org.foo.bar", lit "org.foo"] ∧
    0 < strcmp (lit "org.foo.bar") (lit "org.foo") ∧
    ¬ (∀ names, compact_emits (fun _ => sample_dir) true true true nested_name_system []
        names → names.Pairwise (fun n m => strcmp n m < 0)) := by
  have hemits : compact_emits (fun _ => sample_dir) true true true nested_name_system []
      [lit "org.foo.bar", lit "org.foo"] :=
    ⟨⟨some (lit "org.foo"),
        ⟨[name_row (lit "org.foo.bar"), name_row (lit "org.foo")], ⟨[], []⟩⟩⟩,
      by decide, by decide⟩
  refine ⟨by decide, by decide, by decide, by decide, hemits, by decide, ?_⟩
  intro h
  exact absurd (h _ hemits) (by decide)

/-- C17, amended. For ascending system and user lists of well-formed references of a
single kind, the names emitted in compact mode are strictly ascending under byte-wise
comparison of the name followed by `/` (the order of the full references), hence
pairwise distinct; they are strictly ascending under byte-wise comparison of the bare
names when no emitted name is a proper start of another emitted name. -/
theorem compact_order (dirs : Bool → XdgAppDir) (app print_system print_user : Bool)
    (A B : List CStr) (hA : ascending A) (hB : ascending B)
    (hwf : ∀ r ∈ A ++ B, well_formed r)
    (hkind : ∀ x ∈ A ++ B, ∀ z ∈ A ++ B, ref_kind x = ref_kind z) :
    ∃ names, compact_emits dirs app print_system print_user A B names ∧
      names.Pairwise (fun n m => strcmp (n ++ [slash]) (m ++ [slash]) < 0) ∧
      names.Nodup ∧
      ((∀ n ∈ names, ∀ m ∈ names, m <+: n → m = n) →
        names.Pairwise (fun n m => strcmp n m < 0)) := by
  have hstrict := run_length_merged_strict A B hA hB hwf hkind
  refine ⟨run_length none (merged_names A B),
    compact_emits_run_length dirs app print_system print_user A B
      (fun r hr => ref_name_of_well_formed (hwf r hr)), hstrict, ?_, ?_⟩
  · refine List.Pairwise.imp ?_ hstrict
    intro n m h e
    rw [e, strcmp_self] at h
    omega
  · intro hfree
    refine List.Pairwise.imp_of_mem ?_ hstrict
    intro n m hn hm h
    exact strcmp_lt_of_name_slash_lt n m h (hfree n hn m hm)

theorem compact_order_witness :
    ascending nested_name_system ∧ ascending ([] : List CStr) ∧
    (∀ r ∈ nested_name_system ++ [], well_formed r) ∧
    (∀ x ∈ nested_name_system ++ [], ∀ z ∈ nested_name_system ++ [],
      ref_kind x = ref_kind z) ∧
    ∃ names, compact_emits (fun _ => sample_dir) true true true nested_name_system [] names ∧
      names.Pairwise (fun n m => strcmp (n ++ [slash]) (m ++ [slash]) < 0) ∧
      names.Nodup ∧
      ((∀ n ∈ names, ∀ m ∈ names, m <+: n → m = n) →
        names.Pairwise (fun n m => strcmp n m < 0)) :=
  ⟨by decide, by decide, by decide, by decide,
    compact_order (fun _ => sample_dir) true true true nested_name_system []
      (by decide) (by decide) (by decide) (by decide)⟩

/-- C18. Equal names are contiguous within one kind: for ascending system and user
lists of well-formed references that all have the same kind, the merged items with any
given name form one contiguous block of the merge output, and compact mode emits
every name of the merged items exactly once. -/
theorem equal_names_contiguous (dirs : Bool → XdgAppDir)
    (app print_system print_user : Bool) (A B : List CStr)
    (hA : ascending A) (hB : ascending B) (hwf : ∀ r ∈ A ++ B, well_formed r)
    (hkind : ∀ x ∈ A ++ B, ∀ z ∈ A ++ B, ref_kind x = ref_kind z) :
    (∀ n : CStr, ∃ pre block post, mergeRefs A B = pre ++ block ++ post ∧
      (∀ item ∈ block, ref_name item.1 = some n) ∧
      (∀ item ∈ pre, ref_name item.1 ≠ some n) ∧
      (∀ item ∈ post, ref_name item.1 ≠ some n)) ∧
    ∃ names, compact_emits dirs app print_system print_user A B names ∧
      names.Nodup ∧ ∀ n, n ∈ names ↔ n ∈ merged_names A B := by
  have hmem : ∀ item ∈ mergeRefs A B, item.1 ∈ A ++ B := fun item hitem =>
    List.mem_append.mpr (mem_mergeRefs_fst.mp (List.mem_map_of_mem Prod.fst hitem))
  refine ⟨?_, run_length none (merged_names A B),
    compact_emits_run_length dirs app print_system print_user A B
      (fun r hr => ref_name_of_well_formed (hwf r hr)), ?_,
    fun n => mem_run_length_none (merged_names A B) n⟩
  · exact contiguous_block (mergeRefs A B) (mergeRefs_ascending A B hA hB)
      (fun item hitem => hwf item.1 (hmem item hitem))
      (fun x hx z hz _ => hkind x.1 (hmem x hx) z.1 (hmem z hz))
  · refine List.Pairwise.imp ?_ (run_length_merged_strict A B hA hB hwf hkind)
    intro n m h e
    rw [e, strcmp_self] at h
    omega

theorem equal_names_contiguous_witness :
    ascending scenario_system ∧ ascending scenario_user ∧
    (∀ r ∈ scenario_system ++ scenario_user, well_formed r) ∧
    (∀ x ∈ scenario_system ++ scenario_user, ∀ z ∈ scenario_system ++ scenario_user,
      ref_kind x = ref_kind z) ∧
    (∀ n : CStr, ∃ pre block post, mergeRefs scenario_system scenario_user =
        pre ++ block ++ post ∧
      (∀ item ∈ block, ref_name item.1 = some n) ∧
      (∀ item ∈ pre, ref_name item.1 ≠ some n) ∧
      (∀ item ∈ post, ref_name item.1 ≠ some n)) ∧
    ∃ names, compact_emits (fun _ => sample_dir) true true true
        scenario_system scenario_user names ∧
      names.Nodup ∧ ∀ n, n ∈ names ↔ n ∈ merged_names scenario_system scenario_user :=
  ⟨by decide, by decide, by decide, by decide,
    equal_names_contiguous (fun _ => sample_dir) true true true scenario_system scenario_user
      (by decide) (by decide) (by decide) (by decide)⟩

/-! ## `join_strv` and the order of the per-scope vectors -/

theorem strcmp_app_runtime {x y : CStr} (hx : lit "app/" <+: x) (hy : lit "runtime/" <+: y) :
    strcmp x y ≤ 0 := by
  obtain ⟨t, ex⟩ := hx
  obtain ⟨u, ey⟩ := hy
  have ha : lit "app/" = (⟨97, by decide⟩ : CChar) :: lit "pp/" := by decide
  have hr : lit "runtime/" = (⟨114, by decide⟩ : CChar) :: lit "untime/" := by decide
  rw [← ex, ← ey, ha, hr]
  simp [strcmp]

theorem ascending_append {X Y : List CStr} (hX : ascending X) (hY : ascending Y)
    (h : ∀ x ∈ X, ∀ y ∈ Y, strcmp x y ≤ 0) : ascending (X ++ Y) := by
  unfold ascending at hX hY ⊢
  exact List.pairwise_append.mpr ⟨hX, hY, h⟩

theorem join_strv_eq (a b : Option (List CStr)) : join_strv a b = a.getD [] ++ b.getD [] := by
  cases a <;> cases b <;> rfl

theorem join_strv_ascending (a b : Option (List CStr))
    (hX : ascending (a.getD [])) (hY : ascending (b.getD []))
    (hXa : ∀ r ∈ a.getD [], lit "app/" <+: r) (hYr : ∀ r ∈ b.getD [], lit "runtime/" <+: r) :
    ascending (join_strv a b) := by
  rw [join_strv_eq]
  exact ascending_append hX hY (fun x hx y hy => strcmp_app_runtime (hXa x hx) (hYr y hy))

theorem query_scope_ascending {dir : XdgAppDir} {app runtime : Bool}
    {refs_app refs_runtime : Option (List CStr)}
    (hq : query_scope dir app runtime = some (refs_app, refs_runtime))
    (hstore : sorted_store dir) : ascending (join_strv refs_app refs_runtime) := by
  obtain ⟨h1, h2, h3, h4⟩ := hstore
  have hnil : ascending ([] : List CStr) := List.Pairwise.nil
  unfold query_scope at hq
  cases he : dir.ensure_repo <;> cases app <;> cases runtime <;>
    cases ha : dir.list_refs (lit "app") <;> cases hr : dir.list_refs (lit "runtime") <;>
    simp [he, ha, hr] at hq <;>
    obtain ⟨e1, e2⟩ := hq <;> subst e1 <;> subst e2 <;>
    simp only [ha, hr, Option.getD_some, Option.getD_none] at h1 h2 h3 h4 <;>
    apply join_strv_ascending <;>
    simp only [Option.getD_some, Option.getD_none] <;>
    first
    | assumption
    | (intro r hr2; cases hr2)

theorem listed_refs_ascending {env : Env} {app runtime print_system print_user : Bool}
    {system user : List CStr}
    (hl : listed_refs env app runtime print_system print_user = some (system, user))
    (hstore : ∀ scope, sorted_store (env.xdg_app_dir_get scope)) :
    ascending system ∧ ascending user := by
  have hscope : ∀ (requested scope : Bool) (q : Option (List CStr) × Option (List CStr)),
      (if requested then query_scope (env.xdg_app_dir_get scope) app runtime
       else some (none, none)) = some q → ascending (join_strv q.1 q.2) := by
    intro requested scope q hq
    cases requested with
    | false =>
      simp only [Bool.false_eq_true, if_false] at hq
      rw [← Option.some.inj hq]
      exact List.Pairwise.nil
    | true =>
      simp only [if_true] at hq
      exact query_scope_ascending hq (hstore scope)
  unfold listed_refs at hl
  cases hu : (if print_user then query_scope (env.xdg_app_dir_get true) app runtime
      else some (none, none)) with
  | none => rw [hu] at hl; cases hl
  | some qu =>
    cases hs : (if print_system then query_scope (env.xdg_app_dir_get false) app runtime
        else some (none, none)) with
    | none => rw [hu, hs] at hl; cases hl
    | some qs =>
      rw [hu, hs] at hl
      simp only [Option.some.injEq, Prod.mk.injEq] at hl
      obtain ⟨e1, e2⟩ := hl
      rw [← e1, ← e2]
      exact ⟨hscope print_system false qs hs, hscope print_user true qu hu⟩

/-- C19. `join_strv` establishes the precondition of the merge: for an ascending
vector `a` of references starting with `app/` and an ascending vector `b` of
references starting with `runtime/` (a `NULL` vector counting as empty),
`join_strv (a, b)` is `a` followed by `b`, of length `|a| + |b|`, and is ascending;
hence the `system` and `user` vectors handed to the loop are ascending when the
stores return sorted vectors of the requested kind. -/
theorem join_strv_sorted (a b : Option (List CStr))
    (hX : ascending (a.getD [])) (hY : ascending (b.getD []))
    (hXa : ∀ r ∈ a.getD [], lit "app/" <+: r) (hYr : ∀ r ∈ b.getD [], lit "runtime/" <+: r) :
    join_strv a b = a.getD [] ++ b.getD [] ∧
    (join_strv a b).length = (a.getD []).length + (b.getD []).length ∧
    ascending (join_strv a b) ∧
    ∀ (env : Env) (app runtime print_system print_user : Bool) (system user : List CStr),
      (∀ scope, sorted_store (env.xdg_app_dir_get scope)) →
      listed_refs env app runtime print_system print_user = some (system, user) →
      ascending system ∧ ascending user := by
  refine ⟨join_strv_eq a b, ?_, join_strv_ascending a b hX hY hXa hYr, ?_⟩
  · rw [join_strv_eq, List.length_append]
  · intro env app runtime print_system print_user system user hstore hl
    exact listed_refs_ascending hl hstore

theorem join_strv_sorted_witness :
    ascending ((some [lit "app/org.bar/x86_64/stable", lit "app/org.foo/x86_64/stable"]
      : Option (List CStr)).getD []) ∧
    ascending ((some [lit "runtime/org.base/x86_64/stable"] : Option (List CStr)).getD []) ∧
    join_strv (some [lit "app/org.bar/x86_64/stable", lit "app/org.foo/x86_64/stable"])
        (some [lit "runtime/org.base/x86_64/stable"]) =
      [lit "app/org.bar/x86_64/stable", lit "app/org.foo/x86_64/stable",
       lit "runtime/org.base/x86_64/stable"] ∧
    ascending (join_strv
      (some [lit "app/org.bar/x86_64/stable", lit "app/org.foo/x86_64/stable"])
      (some [lit "runtime/org.base/x86_64/stable"])) ∧
    (∀ scope : Bool, sorted_store ((⟨false, fun _ => mixed_dir⟩ : Env).xdg_app_dir_get scope)) ∧
    listed_refs ⟨false, fun _ => mixed_dir⟩ true true true false =
      some ([lit "app/org.foo/x86_64/stable", lit "runtime/org.base/x86_64/stable"], []) ∧
    ascending [lit "app/org.foo/x86_64/stable", lit "runtime/org.base/x86_64/stable"] :=
  have h := join_strv_sorted
    (some [lit "app/org.bar/x86_64/stable", lit "app/org.foo/x86_64/stable"])
    (some [lit "runtime/org.base/x86_64/stable"]) (by decide) (by decide) (by decide)
    (by decide)
  ⟨by decide, by decide, h.1, h.2.2.1, fun _ => (by decide : sorted_store mixed_dir),
    by decide,
    (h.2.2.2 ⟨false, fun _ => mixed_dir⟩ true true true false
      [lit "app/org.foo/x86_64/stable", lit "runtime/org.base/x86_64/stable"] []
      (fun _ => (by decide : sorted_store mixed_dir)) (by decide)).1⟩

/-! ## Termination of the merge loop -/

theorem get?_none_iff_le (l : List CStr) (i : Nat) : l[i]? = none ↔ l.length ≤ i :=
  List.getElem?_eq_none_iff

theorem lt_of_get?_some {l : List CStr} {i : Nat} {r : CStr} (h : l[i]? = some r) :
    i < l.length := by
  by_cases hlt : i < l.length
  · exact hlt
  · have hn : l[i]? = none := (get?_none_iff_le l i).mpr (by omega)
    rw [hn] at h
    cases h

theorem loop_step_cases {system user : List CStr} {st st2 : Nat × Nat}
    (h : loop_step system user st = some st2) :
    (st2 = (st.1 + 1, st.2) ∧ st.1 < system.length) ∨
    (st2 = (st.1, st.2 + 1) ∧ st.2 < user.length) := by
  unfold loop_step loop_cond at h
  simp only [List.get?_eq_getElem?] at h
  cases hs : system[st.1]? with
  | none =>
    cases hu : user[st.2]? with
    | none => simp [hs, hu] at h
    | some b =>
      simp [hs, hu, is_user] at h
      exact Or.inr ⟨h.symm, lt_of_get?_some hu⟩
  | some a =>
    cases hu : user[st.2]? with
    | none =>
      simp [hs, hu, is_user] at h
      exact Or.inl ⟨h.symm, lt_of_get?_some hs⟩
    | some b =>
      by_cases hc : strcmp a b ≤ 0
      · simp [hs, hu, is_user, hc] at h
        exact Or.inl ⟨h.symm, lt_of_get?_some hs⟩
      · simp [hs, hu, is_user, hc] at h
        exact Or.inr ⟨h.symm, lt_of_get?_some hu⟩

theorem loop_step_eq_none_iff (system user : List CStr) (st : Nat × Nat) :
    loop_step system user st = none ↔ system.length ≤ st.1 ∧ user.length ≤ st.2 := by
  unfold loop_step loop_cond
  simp only [List.get?_eq_getElem?]
  rw [← get?_none_iff_le, ← get?_none_iff_le]
  cases hs : system[st.1]? <;> cases hu : user[st.2]? <;> simp <;> split <;> simp

theorem loop_indices_invariant (system user : List CStr) :
    ∀ k, k ≤ system.length + user.length →
    ∃ s u, loop_indices system user k = some (s, u) ∧ s + u = k ∧
      s ≤ system.length ∧ u ≤ user.length := by
  intro k
  induction k with
  | zero =>
    intro _
    exact ⟨0, 0, rfl, rfl, Nat.zero_le _, Nat.zero_le _⟩
  | succ k ih =>
    intro hk
    obtain ⟨s, u, hi, hsum, hs, hu⟩ := ih (by omega)
    cases hstep : loop_step system user (s, u) with
    | none =>
      have h := (loop_step_eq_none_iff system user (s, u)).mp hstep
      simp only at h
      omega
    | some st2 =>
      rcases loop_step_cases hstep with ⟨e, hlt⟩ | ⟨e, hlt⟩
      · simp only at e hlt
        refine ⟨s + 1, u, ?_, by omega, by omega, hu⟩
        simp only [loop_indices, hi, hstep, e]
      · simp only at e hlt
        refine ⟨s, u + 1, ?_, by omega, hs, by omega⟩
        simp only [loop_indices, hi, hstep, e]

theorem loop_indices_exit (system user : List CStr) :
    loop_indices system user (system.length + user.length) =
      some (system.length, user.length) ∧
    loop_step system user (system.length, user.length) = none ∧
    loop_indices system user (system.length + user.length + 1) = none := by
  obtain ⟨s, u, hi, hsum, hs, hu⟩ :=
    loop_indices_invariant system user (system.length + user.length) (Nat.le_refl _)
  have e1 : s = system.length := by omega
  have e2 : u = user.length := by omega
  subst e1
  subst e2
  have hnone : loop_step system user (system.length, user.length) = none :=
    (loop_step_eq_none_iff system user _).mpr ⟨Nat.le_refl _, Nat.le_refl _⟩
  refine ⟨hi, hnone, ?_⟩
  simp only [loop_indices, hi, hnone]

/-- One unfolding of `mergeLoop` is one `loop_step`: an item is emitted exactly when
the loop condition holds, and the loop goes on from the advanced indices. -/
theorem mergeLoop_succ_length (system user : List CStr) (fuel s u : Nat) :
    (mergeLoop system user (fuel + 1) s u).length =
      match loop_step system user (s, u) with
      | none => 0
      | some st => 1 + (mergeLoop system user fuel st.1 st.2).length := by
  unfold loop_step loop_cond
  simp only [List.get?_eq_getElem?]
  cases hs : system[s]? with
  | none =>
    cases hu : user[u]? with
    | none => simp [mergeLoop, hs, hu]
    | some b => simp [mergeLoop, hs, hu, is_user, Nat.add_comm]
  | some a =>
    cases hu : user[u]? with
    | none => simp [mergeLoop, hs, hu, is_user, Nat.add_comm]
    | some b =>
      by_cases hc : strcmp a b ≤ 0
      · simp [mergeLoop, hs, hu, is_user, hc, Nat.add_comm]
      · simp [mergeLoop, hs, hu, is_user, hc, Nat.add_comm]

/-- Fuel beyond the remaining `(|system| - s) + (|user| - u)` iterations is never
used. -/
theorem mergeLoop_extra_fuel (system user : List CStr) (extra : Nat) :
    ∀ fuel s u, s ≤ system.length → u ≤ user.length →
    (system.length - s) + (user.length - u) ≤ fuel →
    mergeLoop system user (fuel + extra) s u = mergeLoop system user fuel s u := by
  intro fuel
  induction fuel with
  | zero =>
    intro s u hs hu h
    have h1 : system[s]? = none := (get?_none_iff_le system s).mpr (by omega)
    have h2 : user[u]? = none := (get?_none_iff_le user u).mpr (by omega)
    cases extra with
    | zero => rfl
    | succ e => simp [mergeLoop, h1, h2]
  | succ fuel ih =>
    intro s u hs hu h
    have e : fuel + 1 + extra = (fuel + extra) + 1 := by omega
    rw [e]
    cases hsys : system[s]? with
    | none =>
      cases husr : user[u]? with
      | none => simp [mergeLoop, hsys, husr]
      | some b =>
        have hlt := lt_of_get?_some husr
        simp [mergeLoop, hsys, husr, is_user, ih s (u + 1) hs (by omega) (by omega)]
    | some a =>
      have hlts := lt_of_get?_some hsys
      cases husr : user[u]? with
      | none =>
        simp [mergeLoop, hsys, husr, is_user, ih (s + 1) u (by omega) hu (by omega)]
      | some b =>
        have hltu := lt_of_get?_some husr
        by_cases hc : strcmp a b ≤ 0
        · simp [mergeLoop, hsys, husr, is_user, hc, ih (s + 1) u (by omega) hu (by omega)]
        · simp [mergeLoop, hsys, husr, is_user, hc, ih s (u + 1) hs (by omega) (by omega)]

/-- C20. The merge loop terminates: from `s = 0, u = 0` the loop runs for exactly
`|A| + |B|` iterations (its condition holds before each of them and fails after the
last, at `s = |A|, u = |B|`); every iteration advances exactly one index by one, and
only an index that points at an element, so `s <= |A|` and `u <= |B|` throughout and
no read goes past a terminator; the loop emits `|A| + |B|` items whatever bound above
`|A| + |B|` is put on the number of iterations. -/
theorem merge_loop_terminates (A B : List CStr) :
    (∀ k, k ≤ A.length + B.length →
      ∃ s u, loop_indices A B k = some (s, u) ∧ s + u = k ∧ s ≤ A.length ∧ u ≤ B.length) ∧
    loop_indices A B (A.length + B.length) = some (A.length, B.length) ∧
    loop_step A B (A.length, B.length) = none ∧
    loop_indices A B (A.length + B.length + 1) = none ∧
    (∀ st st2, loop_step A B st = some st2 →
      (st2 = (st.1 + 1, st.2) ∧ st.1 < A.length) ∨
      (st2 = (st.1, st.2 + 1) ∧ st.2 < B.length)) ∧
    (mergeRefs A B).length = A.length + B.length ∧
    ∀ extra, mergeLoop A B (A.length + B.length + extra) 0 0 = mergeRefs A B := by
  obtain ⟨h1, h2, h3⟩ := loop_indices_exit A B
  refine ⟨loop_indices_invariant A B, h1, h2, h3, fun st st2 h => loop_step_cases h,
    mergeRefs_length A B, ?_⟩
  intro extra
  exact mergeLoop_extra_fuel A B extra (A.length + B.length) 0 0 (Nat.zero_le _)
    (Nat.zero_le _) (by omega)

theorem merge_loop_terminates_witness :
    (2 ≤ scenario_system.length + scenario_user.length ∧
      ∃ s u, loop_indices scenario_system scenario_user 2 = some (s, u) ∧ s + u = 2 ∧
        s ≤ scenario_system.length ∧ u ≤ scenario_user.length) ∧
    loop_indices scenario_system scenario_user 3 = some (2, 1) ∧
    (loop_step scenario_system scenario_user (1, 1) = some (2, 1) ∧
      (((2, 1) : Nat × Nat) = (1 + 1, 1) ∧ 1 < scenario_system.length ∨
       ((2, 1) : Nat × Nat) = (1, 1 + 1) ∧ 1 < scenario_user.length)) :=
  ⟨⟨by decide, (merge_loop_terminates scenario_system scenario_user).1 2 (by decide)⟩,
    (merge_loop_terminates scenario_system scenario_user).2.1,
    ⟨by decide,
      (merge_loop_terminates scenario_system scenario_user).2.2.2.2.1 (1, 1) (2, 1)
        (by decide)⟩⟩

/-! ## Success of `print_installed_refs` -/

theorem query_scope_mem {dir : XdgAppDir} {app runtime : Bool}
    {refs_app refs_runtime : Option (List CStr)}
    (hq : query_scope dir app runtime = some (refs_app, refs_runtime)) :
    ∀ r ∈ join_strv refs_app refs_runtime, r ∈ installed dir := by
  unfold query_scope at hq
  unfold installed
  cases he : dir.ensure_repo <;> cases app <;> cases runtime <;>
    cases ha : dir.list_refs (lit "app") <;> cases hr : dir.list_refs (lit "runtime") <;>
    simp [he, ha, hr] at hq <;>
    obtain ⟨e1, e2⟩ := hq <;> subst e1 <;> subst e2 <;>
    intro r hmem <;> simp [join_strv] at hmem <;>
    simp [hmem]

theorem listed_refs_mem {env : Env} {app runtime print_system print_user : Bool}
    {system user : List CStr}
    (hl : listed_refs env app runtime print_system print_user = some (system, user)) :
    (∀ r ∈ system, r ∈ installed (env.xdg_app_dir_get false)) ∧
    (∀ r ∈ user, r ∈ installed (env.xdg_app_dir_get true)) := by
  have hscope : ∀ (requested scope : Bool) (q : Option (List CStr) × Option (List CStr)),
      (if requested then query_scope (env.xdg_app_dir_get scope) app runtime
       else some (none, none)) = some q →
      ∀ r ∈ join_strv q.1 q.2, r ∈ installed (env.xdg_app_dir_get scope) := by
    intro requested scope q hq
    cases requested with
    | false =>
      simp only [Bool.false_eq_true, if_false] at hq
      rw [← Option.some.inj hq]
      intro r hr
      cases hr
    | true =>
      simp only [if_true] at hq
      exact query_scope_mem hq
  unfold listed_refs at hl
  cases hu : (if print_user then query_scope (env.xdg_app_dir_get true) app runtime
      else some (none, none)) with
  | none => rw [hu] at hl; cases hl
  | some qu =>
    cases hs : (if print_system then query_scope (env.xdg_app_dir_get false) app runtime
        else some (none, none)) with
    | none => rw [hu, hs] at hl; cases hl
    | some qs =>
      rw [hu, hs] at hl
      simp only [Option.some.injEq, Prod.mk.injEq] at hl
      obtain ⟨e1, e2⟩ := hl
      rw [← e1, ← e2]
      exact ⟨hscope print_system false qs hs, hscope print_user true qu hu⟩

/-- The merged items when the vector of `scope` is empty: all come from the store of
the other scope. -/
theorem merged_items_other_scope {env : Env} {app runtime print_system print_user : Bool}
    {system user : List CStr} (scope : Bool)
    (hl : listed_refs env app runtime print_system print_user = some (system, user))
    (hnil : (if scope then user else system) = []) :
    ∀ item ∈ mergeRefs system user,
      item.2 = (!scope) ∧ item.1 ∈ installed (env.xdg_app_dir_get (!scope)) := by
  obtain ⟨hsys, husr⟩ := listed_refs_mem hl
  intro item hitem
  have hne := mergeRefs_scope_of_nil scope hnil item hitem
  rcases mem_mergeRefs_cases hitem with ⟨e, hm⟩ | ⟨e, hm⟩
  · cases scope with
    | true => exact ⟨e, hsys item.1 hm⟩
    | false => exact absurd e hne
  · cases scope with
    | true => exact absurd e hne
    | false => exact ⟨e, husr item.1 hm⟩

theorem print_installed_refs_compact_success (env : Env)
    (app runtime print_system print_user : Bool) (system user : List CStr)
    (hd : env.opt_show_details = false)
    (hl : listed_refs env app runtime print_system print_user = some (system, user))
    (hnames : ∀ item ∈ mergeRefs system user, ∃ n, ref_name item.1 = some n) :
    ∃ rows, print_installed_refs env app runtime print_system print_user =
      Result.success rows := by
  obtain ⟨d, dirs⟩ := env
  simp only at hd
  subst hd
  obtain ⟨st, hrun, _⟩ := run_loop_compact dirs app print_system print_user
    (mergeRefs system user) none xdg_app_table_printer_new hnames rfl
  refine ⟨xdg_app_table_printer_print st.printer, ?_⟩
  rw [print_installed_refs_eq_listed, hl]
  simp only [hrun]

theorem print_installed_refs_detailed_success (env : Env)
    (app runtime print_system print_user : Bool) (system user : List CStr)
    (hd : env.opt_show_details = true)
    (hl : listed_refs env app runtime print_system print_user = some (system, user))
    (hitems : ∀ item ∈ mergeRefs system user,
      slash ∈ item.1 ∧ ∃ a, (env.xdg_app_dir_get item.2).read_active item.1 = some a) :
    ∃ rows, print_installed_refs env app runtime print_system print_user =
      Result.success rows := by
  obtain ⟨d, dirs⟩ := env
  simp only at hd hitems
  subst hd
  obtain ⟨rows, hrun, _⟩ := run_loop_detailed dirs app print_system print_user none
    (mergeRefs system user) xdg_app_table_printer_new rfl
    (fun item hitem => by
      obtain ⟨hs, a, ha⟩ := hitems item hitem
      obtain ⟨_, _, _, _, _, _, hrow⟩ :=
        annotate_detailed dirs app print_system print_user none item.1 item.2 a ha hs
      exact ⟨_, hrow⟩)
  refine ⟨xdg_app_table_printer_print
    ⟨xdg_app_table_printer_new.rows ++ rows, ⟨[], []⟩⟩, ?_⟩
  rw [print_installed_refs_eq_listed, hl]
  simp only [hrun]

/-! ## Claims about an uninitialised store -/

/-- C12 fails as stated: with both scopes requested, the user store not initialised
and a system store whose `list_refs` call fails, `print_installed_refs` returns
failure; it does not succeed. -/
theorem uninitialized_store_counterexample :
    uninitialized_dir.ensure_repo = false ∧
    failing_dir.ensure_repo = true ∧ failing_dir.list_refs (lit "app") = none ∧
    list_refs_calls ⟨false, fun s => if s then uninitialized_dir else failing_dir⟩
        true false true true = [(false, lit "app")] ∧
    print_installed_refs ⟨false, fun s => if s then uninitialized_dir else failing_dir⟩
        true false true true = Result.failure ∧
    ¬ ∃ rows, print_installed_refs
        ⟨false, fun s => if s then uninitialized_dir else failing_dir⟩
        true false true true = Result.success rows := by
  refine ⟨rfl, rfl, rfl, by decide, by decide, ?_⟩
  rintro ⟨rows, h⟩
  have h2 : print_installed_refs ⟨false, fun s => if s then uninitialized_dir else failing_dir⟩
      true false true true = Result.failure := by decide
  rw [h2] at h
  cases h

/-- C12, amended. When `ensure_repo` fails for a scope, `print_installed_refs` makes no
`list_refs` call for that scope, the vector of that scope handed to the loop is empty,
and the outcome is the one obtained when that store is initialised and holds no
reference. The call returns failure only when a `list_refs` call of the other scope
fails. It succeeds when every `list_refs` call made succeeds and, in compact mode,
every reference of the other store has a name component, or, in detailed mode, every
reference of the other store contains a `/` and has an active commit; it succeeds with
zero rows when the other scope is not requested or not initialised either. -/
theorem uninitialized_store_noop (env : Env) (app runtime print_system print_user : Bool)
    (scope : Bool) (h : (env.xdg_app_dir_get scope).ensure_repo = false) :
    (∀ call ∈ list_refs_calls env app runtime print_system print_user, call.1 ≠ scope) ∧
    (∀ system user, listed_refs env app runtime print_system print_user = some (system, user) →
      (if scope then user else system) = []) ∧
    print_installed_refs env app runtime print_system print_user =
      print_installed_refs (with_dir env scope (empty_store (env.xdg_app_dir_get scope)))
        app runtime print_system print_user ∧
    (print_installed_refs env app runtime print_system print_user = Result.failure →
      ∃ call ∈ list_refs_calls env app runtime print_system print_user,
        call.1 = (!scope) ∧ (env.xdg_app_dir_get call.1).list_refs call.2 = none) ∧
    (((if scope then print_system else print_user) = false ∨
        (env.xdg_app_dir_get (!scope)).ensure_repo = false) →
      print_installed_refs env app runtime print_system print_user = Result.success []) ∧
    ((∀ call ∈ list_refs_calls env app runtime print_system print_user,
        (env.xdg_app_dir_get call.1).list_refs call.2 ≠ none) →
      env.opt_show_details = false →
      (∀ r ∈ installed (env.xdg_app_dir_get (!scope)), ∃ n, ref_name r = some n) →
      ∃ rows, print_installed_refs env app runtime print_system print_user =
        Result.success rows) ∧
    ((∀ call ∈ list_refs_calls env app runtime print_system print_user,
        (env.xdg_app_dir_get call.1).list_refs call.2 ≠ none) →
      env.opt_show_details = true →
      (∀ r ∈ installed (env.xdg_app_dir_get (!scope)),
        slash ∈ r ∧ ∃ a, (env.xdg_app_dir_get (!scope)).read_active r = some a) →
      ∃ rows, print_installed_refs env app runtime print_system print_user =
        Result.success rows) := by
  have hcalls : ∀ call ∈ list_refs_calls env app runtime print_system print_user,
      call.1 ≠ scope := by
    intro call hcall e
    have h1 := (mem_query_scope_calls (mem_list_refs_calls hcall).2).1
    rw [e, h] at h1
    cases h1
  have hlisted : (∀ call ∈ list_refs_calls env app runtime print_system print_user,
      (env.xdg_app_dir_get call.1).list_refs call.2 ≠ none) →
      ∃ system user, listed_refs env app runtime print_system print_user =
        some (system, user) := by
    intro hq
    cases hl : listed_refs env app runtime print_system print_user with
    | none =>
      obtain ⟨call, hcall, hfail⟩ :=
        (listed_refs_eq_none_iff env app runtime print_system print_user).mp hl
      exact absurd hfail (hq call hcall)
    | some lists => exact ⟨lists.1, lists.2, rfl⟩
  refine ⟨hcalls, ?_, ?_, ?_, ?_, ?_, ?_⟩
  · exact listed_refs_uninitialized env app runtime print_system print_user scope h
  · exact print_installed_refs_with_empty_store env app runtime print_system print_user scope h
  · intro hf
    have hnone : listed_refs env app runtime print_system print_user = none := by
      rw [print_installed_refs_eq_listed] at hf
      cases hl : listed_refs env app runtime print_system print_user with
      | none => rfl
      | some lists =>
        rw [hl] at hf
        obtain ⟨system, user⟩ := lists
        simp only at hf
        cases hr : run_loop env app print_system print_user (mergeRefs system user)
            ⟨none, xdg_app_table_printer_new⟩ with
        | none => rw [hr] at hf; cases hf
        | some st => rw [hr] at hf; cases hf
    obtain ⟨call, hcall, hfail⟩ :=
      (listed_refs_eq_none_iff env app runtime print_system print_user).mp hnone
    refine ⟨call, hcall, ?_, hfail⟩
    have hne := hcalls call hcall
    cases hc : call.1 <;> cases scope <;> simp_all
  · intro hother
    have hl : listed_refs env app runtime print_system print_user = some ([], []) := by
      have hu := (query_scope_uninitialized app runtime h).1
      have hnn : join_strv none none = [] := rfl
      cases scope with
      | true =>
        rcases hother with ho | ho
        · simp only [if_true] at ho
          cases print_user <;> simp [listed_refs, ho, hu, hnn]
        · have ho2 := (query_scope_uninitialized app runtime ho).1
          simp only [Bool.not_true] at ho2
          cases print_user <;> cases print_system <;> simp [listed_refs, ho2, hu, hnn]
      | false =>
        rcases hother with ho | ho
        · simp only [Bool.false_eq_true, if_false] at ho
          cases print_system <;> simp [listed_refs, ho, hu, hnn]
        · have ho2 := (query_scope_uninitialized app runtime ho).1
          simp only [Bool.not_false] at ho2
          cases print_user <;> cases print_system <;> simp [listed_refs, ho2, hu, hnn]
    rw [print_installed_refs_eq_listed, hl]
    rfl
  · intro hq hd hnames
    obtain ⟨system, user, hl⟩ := hlisted hq
    have hnil := listed_refs_uninitialized env app runtime print_system print_user scope h
      system user hl
    exact print_installed_refs_compact_success env app runtime print_system print_user
      system user hd hl
      (fun item hitem => hnames item.1 (merged_items_other_scope scope hl hnil item hitem).2)
  · intro hq hd hitems
    obtain ⟨system, user, hl⟩ := hlisted hq
    have hnil := listed_refs_uninitialized env app runtime print_system print_user scope h
      system user hl
    refine print_installed_refs_detailed_success env app runtime print_system print_user
      system user hd hl ?_
    intro item hitem
    obtain ⟨e, hm⟩ := merged_items_other_scope scope hl hnil item hitem
    rw [e]
    exact hitems item.1 hm

theorem uninitialized_store_noop_witness :
    uninitialized_dir.ensure_repo = false ∧
    (∀ call ∈ list_refs_calls ⟨false, fun s => if s then uninitialized_dir else sample_dir⟩
        true false true true, call.1 ≠ true) ∧
    (∀ call ∈ list_refs_calls ⟨false, fun s => if s then uninitialized_dir else sample_dir⟩
        true false true true,
      ((fun s : Bool => if s then uninitialized_dir else sample_dir) call.1).list_refs call.2 ≠
        none) ∧
    (∃ rows, print_installed_refs
        ⟨false, fun s => if s then uninitialized_dir else sample_dir⟩ true false true true =
      Result.success rows) ∧
    print_installed_refs ⟨false, fun s => if s then uninitialized_dir else sample_dir⟩
        true false true true =
      Result.success [name_row (lit "org.foo")] ∧
    print_installed_refs ⟨false, fun _ => uninitialized_dir⟩ true true true false =
      Result.success [] :=
  have hwf : ∀ r ∈ installed sample_dir, well_formed r := by decide
  ⟨rfl,
    (uninitialized_store_noop ⟨false, fun s => if s then uninitialized_dir else sample_dir⟩
      true false true true true rfl).1,
    by decide,
    (uninitialized_store_noop ⟨false, fun s => if s then uninitialized_dir else sample_dir⟩
      true false true true true rfl).2.2.2.2.2.1 (by decide) rfl
      (fun r hr => ref_name_of_well_formed (hwf r hr)),
    by decide,
    (uninitialized_store_noop ⟨false, fun _ => uninitialized_dir⟩ true true true false false
      rfl).2.2.2.2.1 (Or.inr rfl)⟩

end XdgAppList
